import Mathlib

/-!
Verification of the RelAIBotiX hybrid reliability solver.

This file gives a shallow embedding of the Python code in
`dra_solver.py` and `dra_reliability_models.py` (and the identical
methods in `src/reliability_models.py`), and proves or refutes the
frozen specification claims about it.

Modelling conventions:
* Python `dict`s are association lists (`List (String × α)`) with
  insertion-order semantics: an assignment to an existing key updates
  the entry in place, an assignment to a fresh key appends.
* Python floats are modelled by `ℚ` (exact arithmetic); the algebraic
  claims are about the mathematical values the numeric code computes.
* Raising an exception or diverging is modelled by `Option`/fuel.
* Python's substring test `a in b` on strings is `pyIn`, and
  `str.lower` is `pyLower` (character-wise, as for the ASCII
  identifiers used by the program).
-/

namespace DRA

/-- Python `a in b` on strings: `a` occurs as a contiguous substring of `b`. -/
def pyIn (a b : String) : Bool := decide (a.data <:+: b.data)

/-- Python `str.lower`: character-wise lowercasing of the string. -/
def pyLower (s : String) : String := ⟨s.data.map Char.toLower⟩

/-- Dictionary lookup `d[k]` (first entry with the given key). -/
def dlook {α : Type} (d : List (String × α)) (k : String) : Option α :=
  match d with
  | [] => none
  | p :: d => if p.1 = k then some p.2 else dlook d k

/-- Python dict assignment `d[k] = v`: update in place if the key exists,
append otherwise. -/
def dictSet {α : Type} (d : List (String × α)) (k : String) (v : α) :
    List (String × α) :=
  if (dlook d k).isSome then d.map (fun p => if p.1 = k then (k, v) else p)
  else d ++ [(k, v)]

/-- Python `del d[k]`. -/
def dictDel {α : Type} (d : List (String × α)) (k : String) :
    List (String × α) :=
  d.filter (fun p => p.1 ≠ k)

/-- Nested dict lookup `d[a][b]` as an `Option`. -/
def lookup2 {α : Type} (d : List (String × List (String × α))) (a b : String) :
    Option α :=
  (dlook d a).bind (fun inner => dlook inner b)

@[simp] theorem dlook_nil {α : Type} (k : String) :
    dlook ([] : List (String × α)) k = none := rfl

@[simp] theorem dlook_cons {α : Type} (p : String × α) (d : List (String × α))
    (k : String) :
    dlook (p :: d) k = if p.1 = k then some p.2 else dlook d k := rfl

@[simp] theorem dlook_append {α : Type} (d₁ d₂ : List (String × α))
    (k : String) :
    dlook (d₁ ++ d₂) k =
      match dlook d₁ k with
      | some v => some v
      | none => dlook d₂ k := by
  induction d₁ with
  | nil => simp
  | cons p d ih =>
    by_cases h : p.1 = k <;> simp [h, ih]

theorem dlook_singleton {α : Type} (k k' : String) (v : α) :
    dlook [(k, v)] k' = if k = k' then some v else none := by simp

theorem dlook_map_update_self {α : Type} (d : List (String × α))
    (k : String) (v : α) :
    dlook (d.map (fun p => if p.1 = k then (k, v) else p)) k =
      (dlook d k).map (fun _ => v) := by
  induction d with
  | nil => simp
  | cons p d ih =>
    by_cases h : p.1 = k <;> simp [h, ih]

theorem dlook_map_update_ne {α : Type} (d : List (String × α))
    (k k' : String) (v : α) (hne : k' ≠ k) :
    dlook (d.map (fun p => if p.1 = k then (k, v) else p)) k' =
      dlook d k' := by
  induction d with
  | nil => simp
  | cons p d ih =>
    by_cases h : p.1 = k
    · have hk : ¬(k = k') := fun hc => hne hc.symm
      have hp : ¬(p.1 = k') := fun hc => hk (h ▸ hc)
      simp only [List.map_cons, dlook_cons, h, if_true, hk, if_false, ih, hp]
    · simp only [List.map_cons, dlook_cons, h, if_false]
      by_cases h2 : p.1 = k' <;> simp [h2, ih]

@[simp] theorem dlook_dictSet_self {α : Type} (d : List (String × α))
    (k : String) (v : α) : dlook (dictSet d k v) k = some v := by
  unfold dictSet
  split
  · next h =>
    rw [dlook_map_update_self]
    cases hd : dlook d k
    · rw [hd] at h; simp at h
    · simp
  · rename_i h
    rw [dlook_append]
    cases hd : dlook d k
    · simp
    · rw [hd] at h; simp at h

@[simp] theorem dlook_dictSet_ne {α : Type} (d : List (String × α))
    (k k' : String) (v : α) (hne : k' ≠ k) :
    dlook (dictSet d k v) k' = dlook d k' := by
  unfold dictSet
  split
  · exact dlook_map_update_ne d k k' v hne
  · rw [dlook_append]
    cases hd : dlook d k'
    · have hk : ¬(k = k') := fun hc => hne hc.symm
      simp [hk]
    · simp

theorem dictSet_fresh {α : Type} (d : List (String × α)) (k : String) (v : α)
    (h : dlook d k = none) : dictSet d k v = d ++ [(k, v)] := by
  unfold dictSet
  rw [h]
  simp

theorem dlook_isSome_iff_mem_keys {α : Type} (d : List (String × α))
    (k : String) : (dlook d k).isSome ↔ k ∈ d.map Prod.fst := by
  induction d with
  | nil => simp
  | cons p d ih =>
    by_cases h : p.1 = k
    · simp [h]
    · simp only [dlook_cons, h, if_false, List.map_cons, List.mem_cons, ih]
      constructor
      · exact fun hm => Or.inr hm
      · rintro (hm | hm)
        · exact absurd hm.symm h
        · exact hm

theorem dlook_eq_none_iff {α : Type} (d : List (String × α)) (k : String) :
    dlook d k = none ↔ k ∉ d.map Prod.fst := by
  rw [← dlook_isSome_iff_mem_keys]
  cases h : dlook d k <;> simp [h]

theorem dlook_eq_of_mem {α : Type} (d : List (String × α)) (k : String)
    (v : α) (hnd : (d.map Prod.fst).Nodup) (hm : (k, v) ∈ d) :
    dlook d k = some v := by
  induction d with
  | nil => simp at hm
  | cons p d ih =>
    simp only [List.map_cons, List.nodup_cons] at hnd
    rcases List.mem_cons.mp hm with h | h
    · subst h; simp
    · have hk : p.1 ≠ k := by
        intro hc
        exact hnd.1 (hc ▸ (List.mem_map.mpr ⟨(k, v), h, rfl⟩))
      simpa [hk] using ih hnd.2 h

theorem mem_of_dlook_eq_some {α : Type} (d : List (String × α)) (k : String)
    (v : α) (h : dlook d k = some v) : (k, v) ∈ d := by
  induction d with
  | nil => simp at h
  | cons p d ih =>
    by_cases hp : p.1 = k
    · simp only [dlook_cons, hp, if_true, Option.some_inj] at h
      have hpe : p = (k, v) := by cases p; simp_all
      rw [← hpe]
      exact List.mem_cons_self _ _
    · simp only [dlook_cons, hp, if_false] at h
      exact List.mem_cons_of_mem _ (ih h)

theorem dlook_dictDel_self {α : Type} (d : List (String × α)) (k : String) :
    dlook (dictDel d k) k = none := by
  induction d with
  | nil => simp [dictDel]
  | cons p d ih =>
    by_cases h : p.1 = k <;> simp_all [dictDel, List.filter_cons, h]

theorem dlook_dictDel_ne {α : Type} (d : List (String × α)) (k k' : String)
    (hne : k' ≠ k) : dlook (dictDel d k) k' = dlook d k' := by
  induction d with
  | nil => simp [dictDel]
  | cons p d ih =>
    by_cases h : p.1 = k
    · have hp : p.1 ≠ k' := fun hc => hne (by rw [← hc, h])
      simp_all [dictDel, List.filter_cons]
    · by_cases h2 : p.1 = k' <;> simp_all [dictDel, List.filter_cons]

theorem dictDel_length_lt {α : Type} (d : List (String × α)) (k : String)
    (h : (dlook d k).isSome) : (dictDel d k).length < d.length := by
  induction d with
  | nil => simp at h
  | cons p d ih =>
    by_cases hp : p.1 = k
    · have hfilt : (decide (p.1 ≠ k)) = false := by simp [hp]
      simp only [dictDel, List.filter_cons, hfilt]
      calc (List.filter (fun p => decide (p.1 ≠ k)) d).length ≤ d.length :=
            List.length_filter_le _ _
        _ < (p :: d).length := by simp
    · simp only [dlook_cons, hp, if_false] at h
      simp only [dictDel, List.filter_cons]
      have : (decide (p.1 ≠ k)) = true := by simpa using hp
      rw [this]
      simpa [dictDel] using Nat.succ_lt_succ (ih h)

theorem dictDel_keys_nodup {α : Type} (d : List (String × α)) (k : String)
    (h : (d.map Prod.fst).Nodup) : ((dictDel d k).map Prod.fst).Nodup := by
  have hsub : List.Sublist ((dictDel d k).map Prod.fst) (d.map Prod.fst) :=
    (List.filter_sublist d).map Prod.fst
  exact h.sublist hsub

/-! ### Fault-tree gate evaluation (`solve_ft_gate`, dra_solver.py lines 45-72)

`solve_ft_gate` returns a float, or Python `False` when a child's
probability cannot be found or the gate type is unknown.  The sentinel
`False` is modelled by `GateResult.err`; in Python arithmetic `False`
behaves as the number `0`, which `grNum` captures. -/

inductive GateResult where
  | val : ℚ → GateResult
  | err : GateResult
deriving DecidableEq, Repr

/-- Numeric value of a stored gate result; Python `False` counts as `0`
in arithmetic and in the NumPy matrix assignment. -/
def grNum : GateResult → ℚ
  | .val q => q
  | .err => 0

/-- Child probability lookup in `solve_ft_gate`: basic events are
consulted first, then the result map (`elif edge in result_map`). -/
def childValue (edge : String) (basic_events : List (String × ℚ))
    (result_map : List (String × GateResult)) : Option GateResult :=
  match dlook basic_events edge with
  | some p => some (.val p)
  | none => dlook result_map edge

/-- The AND branch of `solve_ft_gate`: `result_and = result_and * value`,
returning `False` (err) as soon as a child value is missing. -/
def andFold (edges : List String) (basic_events : List (String × ℚ))
    (result_map : List (String × GateResult)) (acc : ℚ) : GateResult :=
  match edges with
  | [] => .val acc
  | e :: es =>
    match childValue e basic_events result_map with
    | none => .err
    | some g => andFold es basic_events result_map (acc * grNum g)

/-- The OR branch of `solve_ft_gate`:
`result_or = result_or + (1 - result_or) * value`. -/
def orFold (edges : List String) (basic_events : List (String × ℚ))
    (result_map : List (String × GateResult)) (acc : ℚ) : GateResult :=
  match edges with
  | [] => .val acc
  | e :: es =>
    match childValue e basic_events result_map with
    | none => .err
    | some g => orFold es basic_events result_map (acc + (1 - acc) * grNum g)

/-- `solve_ft_gate` (dra_solver.py lines 45-72). -/
def solve_ft_gate (edges : List String) (gate_type : String)
    (basic_events : List (String × ℚ))
    (result_map : List (String × GateResult)) : GateResult :=
  if gate_type = "AND" then andFold edges basic_events result_map 1
  else if gate_type = "OR" then orFold edges basic_events result_map 0
  else .err

/-- The readiness test of the inner loop of `solve_dfs`: a node can be
evaluated when every child that is a gate already has a result. -/
def isReady (edges : List String) (ft_gates : List (String × String))
    (result_map : List (String × GateResult)) : Bool :=
  edges.all (fun e => !(dlook ft_gates e).isSome || (dlook result_map e).isSome)

/-- `solve_dfs` (dra_solver.py lines 24-42).  The Python function
recurses on a mutable dict; `fuel` bounds the recursion depth, `none`
meaning the Python original would recurse forever on this input (or
raise `KeyError` on `ft_gates[node]`).  Each call evaluates the first
ready node, stores its value, deletes it from the successor dict and
recurses; if no node is ready it recurses on the unchanged dict. -/
def solve_dfs (fuel : ℕ) (successor_dict : List (String × List String))
    (ft_gates : List (String × String))
    (ft_basic_events : List (String × ℚ))
    (result_map : List (String × GateResult)) :
    Option (List (String × GateResult)) :=
  match fuel with
  | 0 => none
  | fuel + 1 =>
    if successor_dict.isEmpty then some result_map
    else
      match successor_dict.find? (fun p => isReady p.2 ft_gates result_map) with
      | none => solve_dfs fuel successor_dict ft_gates ft_basic_events result_map
      | some (node, edges) =>
        match dlook ft_gates node with
        | none => none
        | some gate_type =>
          solve_dfs fuel (dictDel successor_dict node) ft_gates ft_basic_events
            (dictSet result_map node
              (solve_ft_gate edges gate_type ft_basic_events result_map))

/-- `solve_ft` (dra_solver.py lines 7-21), restricted to the top-event
output: runs `solve_dfs` on the DFS successor dict and reads off the
top event's value; a top event missing from the result map leaves the
initial probability `0.0` of the `FaultTree` object in place. -/
def solve_ft_top (top_event : String)
    (successor_dict : List (String × List String))
    (ft_gates : List (String × String))
    (ft_basic_events : List (String × ℚ)) : Option GateResult :=
  (solve_dfs (successor_dict.length + 1) successor_dict ft_gates
      ft_basic_events []).map
    (fun rm => (dlook rm top_event).getD (.val 0))

/-! ### Correctness machinery for `solve_dfs`

The fixpoint evaluation is analysed against a reference valuation `V`
of the gate nodes.  `cval` is the value `solve_ft_gate` finds for a
child: the basic-event probability when the child has one (basic
events are consulted first), otherwise the gate value. -/

def cval (basic_events : List (String × ℚ)) (V : String → ℚ)
    (e : String) : ℚ :=
  match dlook basic_events e with
  | some p => p
  | none => V e

/-- The value an AND/OR gate should take according to the accumulation
rules of `solve_ft_gate`. -/
def specGate (gate_type : String) (edges : List String) (c : String → ℚ) : ℚ :=
  if gate_type = "AND" then edges.foldl (fun a e => a * c e) 1
  else edges.foldl (fun a e => a + (1 - a) * c e) 0

theorem andFold_eq (edges : List String) (basic_events : List (String × ℚ))
    (result_map : List (String × GateResult)) (c : String → ℚ) (acc : ℚ)
    (h : ∀ e ∈ edges, childValue e basic_events result_map = some (.val (c e))) :
    andFold edges basic_events result_map acc =
      .val (edges.foldl (fun a e => a * c e) acc) := by
  induction edges generalizing acc with
  | nil => simp [andFold]
  | cons e es ih =>
    have he := h e (List.mem_cons_self _ _)
    simp only [andFold, he, List.foldl_cons, grNum]
    exact ih _ (fun e' he' => h e' (List.mem_cons_of_mem _ he'))

theorem orFold_eq (edges : List String) (basic_events : List (String × ℚ))
    (result_map : List (String × GateResult)) (c : String → ℚ) (acc : ℚ)
    (h : ∀ e ∈ edges, childValue e basic_events result_map = some (.val (c e))) :
    orFold edges basic_events result_map acc =
      .val (edges.foldl (fun a e => a + (1 - a) * c e) acc) := by
  induction edges generalizing acc with
  | nil => simp [orFold]
  | cons e es ih =>
    have he := h e (List.mem_cons_self _ _)
    simp only [orFold, he, List.foldl_cons, grNum]
    exact ih _ (fun e' he' => h e' (List.mem_cons_of_mem _ he'))

theorem solve_ft_gate_eq (edges : List String) (gate_type : String)
    (basic_events : List (String × ℚ))
    (result_map : List (String × GateResult)) (c : String → ℚ)
    (hgt : gate_type = "AND" ∨ gate_type = "OR")
    (h : ∀ e ∈ edges, childValue e basic_events result_map = some (.val (c e))) :
    solve_ft_gate edges gate_type basic_events result_map =
      .val (specGate gate_type edges c) := by
  rcases hgt with hgt | hgt <;> subst hgt <;>
    simp [solve_ft_gate, specGate, andFold_eq _ _ _ c _ h, orFold_eq _ _ _ c _ h]

/-- Every non-empty list has an element of minimal measure. -/
theorem exists_min_measure {α : Type} (l : List α) (f : α → ℕ) (h : l ≠ []) :
    ∃ a ∈ l, ∀ b ∈ l, f a ≤ f b := by
  induction l with
  | nil => exact absurd rfl h
  | cons x xs ih =>
    rcases eq_or_ne xs [] with hxs | hxs
    · subst hxs
      exact ⟨x, List.mem_cons_self _ _, by simp⟩
    · obtain ⟨a, ha, hmin⟩ := ih hxs
      rcases le_or_lt (f x) (f a) with hc | hc
      · exact ⟨x, List.mem_cons_self _ _,
          fun b hb => by
            rcases List.mem_cons.mp hb with hb | hb
            · subst hb; exact le_refl _
            · exact hc.trans (hmin b hb)⟩
      · exact ⟨a, List.mem_cons_of_mem _ ha,
          fun b hb => by
            rcases List.mem_cons.mp hb with hb | hb
            · subst hb; exact hc.le
            · exact hmin b hb⟩

/-- Under the acyclicity (rank) and coverage hypotheses some pending node
is always ready: the node of minimal rank qualifies. -/
theorem exists_ready (sd : List (String × List String))
    (ft_gates : List (String × String))
    (result_map : List (String × GateResult)) (rk : String → ℕ)
    (hne : sd ≠ [])
    (hcov : ∀ p ∈ sd, ∀ e ∈ p.2, (dlook ft_gates e).isSome →
      ((dlook sd e).isSome ∨ (dlook result_map e).isSome))
    (hrank : ∀ p ∈ sd, ∀ e ∈ p.2, (dlook ft_gates e).isSome →
      (dlook sd e).isSome → rk e < rk p.1) :
    ∃ p ∈ sd, isReady p.2 ft_gates result_map = true := by
  obtain ⟨p, hp, hmin⟩ := exists_min_measure sd (fun p => rk p.1) hne
  refine ⟨p, hp, ?_⟩
  unfold isReady
  rw [List.all_eq_true]
  intro e he
  by_cases hg : (dlook ft_gates e).isSome
  · rcases hcov p hp e he hg with hsd | hrm
    · exfalso
      obtain ⟨es', hes'⟩ := Option.isSome_iff_exists.mp hsd
      have hmem : (e, es') ∈ sd := mem_of_dlook_eq_some _ _ _ hes'
      have h1 : rk e < rk p.1 := hrank p hp e he hg hsd
      have h2 : rk p.1 ≤ rk e := hmin (e, es') hmem
      omega
    · simp [hrm]
  · simp [Option.not_isSome_iff_eq_none.mp hg]

/-- Correctness and termination of `solve_dfs`: with enough fuel
(`|successor_dict| < fuel`, i.e. one call per pending gate plus the
final call on the empty dict), the recursion returns a result map in
which every formerly pending gate carries the reference value `V` of
the gate network. -/
theorem solve_dfs_correct (fuel : ℕ) (sd : List (String × List String))
    (ft_gates : List (String × String)) (bes : List (String × ℚ))
    (rm : List (String × GateResult)) (V : String → ℚ) (rk : String → ℕ)
    (hfuel : sd.length < fuel)
    (hnd : (sd.map Prod.fst).Nodup)
    (hv : ∀ p ∈ sd, ∃ gt, dlook ft_gates p.1 = some gt ∧
      (gt = "AND" ∨ gt = "OR") ∧ V p.1 = specGate gt p.2 (cval bes V))
    (hchild : ∀ p ∈ sd, ∀ e ∈ p.2,
      ((dlook ft_gates e).isSome ∧ dlook bes e = none) ∨ (dlook bes e).isSome)
    (hcov : ∀ p ∈ sd, ∀ e ∈ p.2, (dlook ft_gates e).isSome →
      ((dlook sd e).isSome ∨ (dlook rm e).isSome))
    (hrank : ∀ p ∈ sd, ∀ e ∈ p.2, (dlook ft_gates e).isSome →
      (dlook sd e).isSome → rk e < rk p.1)
    (hrm : ∀ k g, dlook rm k = some g → g = .val (V k)) :
    ∃ rm', solve_dfs fuel sd ft_gates bes rm = some rm' ∧
      (∀ k g, dlook rm' k = some g → g = .val (V k)) ∧
      (∀ k, ((dlook sd k).isSome ∨ (dlook rm k).isSome) →
        dlook rm' k = some (.val (V k))) := by
  induction fuel generalizing sd rm with
  | zero => omega
  | succ fuel ih =>
    rcases eq_or_ne sd [] with hsd | hsd
    · subst hsd
      refine ⟨rm, by simp [solve_dfs], hrm, ?_⟩
      intro k hk
      rcases hk with hk | hk
      · simp at hk
      · obtain ⟨g, hg⟩ := Option.isSome_iff_exists.mp hk
        rw [hg, hrm k g hg]
    · have hready := exists_ready sd ft_gates rm rk hsd hcov hrank
      have hfind : (sd.find? (fun p => isReady p.2 ft_gates rm)).isSome := by
        rw [List.find?_isSome]
        obtain ⟨p, hp, hr⟩ := hready
        exact ⟨p, hp, hr⟩
      obtain ⟨⟨node, edges⟩, hfound⟩ := Option.isSome_iff_exists.mp hfind
      have hmem : (node, edges) ∈ sd := List.mem_of_find?_eq_some hfound
      have hreadynode : isReady edges ft_gates rm = true := by
        simpa using List.find?_some hfound
      obtain ⟨gt, hgt, hgtor, hVnode⟩ := hv (node, edges) hmem
      -- the gate found evaluates to its reference value
      have hcval : ∀ e ∈ edges, childValue e bes rm = some (.val (cval bes V e)) := by
        intro e he
        rcases hchild (node, edges) hmem e he with ⟨hg, hb⟩ | hb
        · have hrdy : (dlook rm e).isSome := by
            unfold isReady at hreadynode
            rw [List.all_eq_true] at hreadynode
            have := hreadynode e he
            simpa [hg] using this
          obtain ⟨g, hge⟩ := Option.isSome_iff_exists.mp hrdy
          have := hrm e g hge
          subst this
          simp [childValue, hb, hge, cval]
        · obtain ⟨p, hp⟩ := Option.isSome_iff_exists.mp hb
          simp [childValue, hp, cval]
      have hgateval : solve_ft_gate edges gt bes rm = .val (V node) := by
        rw [solve_ft_gate_eq edges gt bes rm (cval bes V) hgtor hcval, hVnode]
      have hlooknode : dlook sd node = some edges :=
        dlook_eq_of_mem sd node edges hnd hmem
      have hlen : (dictDel sd node).length < sd.length :=
        dictDel_length_lt sd node (by simp [hlooknode])
      -- invariants for the recursive call
      set rm' := dictSet rm node (.val (V node)) with hrmdef
      have hrm' : ∀ k g, dlook rm' k = some g → g = .val (V k) := by
        intro k g hkg
        by_cases hk : k = node
        · subst hk
          rw [hrmdef, dlook_dictSet_self] at hkg
          exact (Option.some_inj.mp hkg).symm
        · rw [hrmdef, dlook_dictSet_ne _ _ _ _ hk] at hkg
          exact hrm k g hkg
      have hsub : ∀ p ∈ dictDel sd node, p ∈ sd :=
        fun p hp => List.mem_of_mem_filter hp
      have hcov' : ∀ p ∈ dictDel sd node, ∀ e ∈ p.2,
          (dlook ft_gates e).isSome →
          ((dlook (dictDel sd node) e).isSome ∨ (dlook rm' e).isSome) := by
        intro p hp e he hg
        by_cases hk : e = node
        · subst hk
          right
          simp [hrmdef]
        · rw [dlook_dictDel_ne _ _ _ hk, hrmdef, dlook_dictSet_ne _ _ _ _ hk]
          exact hcov p (hsub p hp) e he hg
      have hrank' : ∀ p ∈ dictDel sd node, ∀ e ∈ p.2,
          (dlook ft_gates e).isSome → (dlook (dictDel sd node) e).isSome →
          rk e < rk p.1 := by
        intro p hp e he hg hey
        by_cases hk : e = node
        · subst hk
          rw [dlook_dictDel_self] at hey
          simp at hey
        · rw [dlook_dictDel_ne _ _ _ hk] at hey
          exact hrank p (hsub p hp) e he hg hey
      obtain ⟨rmf, hrun, hrmf, hfull⟩ := ih (dictDel sd node) rm'
        (by omega)
        (dictDel_keys_nodup sd node hnd)
        (fun p hp => hv p (hsub p hp))
        (fun p hp => hchild p (hsub p hp))
        hcov' hrank' hrm'
      refine ⟨rmf, ?_, hrmf, ?_⟩
      · rw [solve_dfs]
        have hne : sd.isEmpty = false := by
          cases sd
          · exact absurd rfl hsd
          · rfl
        rw [hne]
        simp only [Bool.false_eq_true, if_false, hfound, hgt, hgateval]
        exact hrun
      · intro k hk
        by_cases hknode : k = node
        · subst hknode
          exact hfull k (Or.inr (by simp [hrmdef]))
        · rcases hk with hk | hk
          · rw [← dlook_dictDel_ne sd node k hknode] at hk
            exact hfull k (Or.inl hk)
          · rw [← dlook_dictSet_ne rm node k (.val (V node)) hknode] at hk
            exact hfull k (Or.inr hk)

/-! ### Fault trees as trees

A fault tree whose gate structure is tree-shaped (`gates` maps each
gate name to one gate type and a list of child names, children are
either basic events or further gates, no sharing).  For such trees
`create_ft_graph` followed by `nx.dfs_successors(ft_graph, top_event)`
yields exactly the successor dict `succDict` below (DFS preorder of
the gate nodes, each listed with all its children), and the
`gate_type` node attributes are `gatesMap`. -/

mutual
inductive FTreeNode where
  | be : String → FTreeNode
  | gate : String → String → FTreeList → FTreeNode
inductive FTreeList where
  | nil : FTreeList
  | cons : FTreeNode → FTreeList → FTreeList
end

def nameOf : FTreeNode → String
  | .be n => n
  | .gate n _ _ => n

def typeOf : FTreeNode → String
  | .be _ => ""
  | .gate _ ty _ => ty

def FTreeList.toList : FTreeList → List FTreeNode
  | .nil => []
  | .cons t ts => t :: ts.toList

/-- Child name list of a gate node, in order. -/
def childNames : FTreeNode → List String
  | .be _ => []
  | .gate _ _ cs => cs.toList.map nameOf

def childNodes : FTreeNode → List FTreeNode
  | .be _ => []
  | .gate _ _ cs => cs.toList

def isGateB : FTreeNode → Bool
  | .be _ => false
  | .gate _ _ _ => true

mutual
/-- All gate nodes of the tree, in DFS preorder. -/
def gateNodes : FTreeNode → List FTreeNode
  | .be _ => []
  | .gate n ty cs => .gate n ty cs :: gateNodesL cs
def gateNodesL : FTreeList → List FTreeNode
  | .nil => []
  | .cons t ts => gateNodes t ++ gateNodesL ts
end

mutual
/-- All basic-event (leaf) names of the tree, in DFS preorder. -/
def leavesOf : FTreeNode → List String
  | .be n => [n]
  | .gate _ _ cs => leavesL cs
def leavesL : FTreeList → List String
  | .nil => []
  | .cons t ts => leavesOf t ++ leavesL ts
end

mutual
def heightOf : FTreeNode → ℕ
  | .be _ => 0
  | .gate _ _ cs => heightL cs + 1
def heightL : FTreeList → ℕ
  | .nil => 0
  | .cons t ts => max (heightOf t) (heightL ts)
end

/-- AND accumulation over a list of child values (`result_and`). -/
def andVal (l : List ℚ) : ℚ := l.foldl (fun a x => a * x) 1

/-- OR accumulation over a list of child values (`result_or`). -/
def orVal (l : List ℚ) : ℚ := l.foldl (fun a x => a + (1 - a) * x) 0

mutual
/-- Reference value of a node: basic events look up their probability,
an AND gate combines its children with `result_and = result_and * v`,
an OR gate with `result_or = result_or + (1-result_or) * v`. -/
def evalNode (bes : List (String × ℚ)) : FTreeNode → ℚ
  | .be n => (dlook bes n).getD 0
  | .gate _ ty cs =>
    if ty = "AND" then andVal (evalListQ bes cs) else orVal (evalListQ bes cs)
def evalListQ (bes : List (String × ℚ)) : FTreeList → List ℚ
  | .nil => []
  | .cons t ts => evalNode bes t :: evalListQ bes ts
end

/-- The DFS successor dict of the tree (`nx.dfs_successors` on the
graph of `create_ft_graph`): every gate node with its children. -/
def succDict (t : FTreeNode) : List (String × List String) :=
  (gateNodes t).map (fun g => (nameOf g, childNames g))

/-- The `gate_type` node attributes of the fault-tree graph. -/
def gatesMap (t : FTreeNode) : List (String × String) :=
  (gateNodes t).map (fun g => (nameOf g, typeOf g))

/-- Reference valuation of the gate names of the tree. -/
def nodeVals (bes : List (String × ℚ)) (t : FTreeNode) :
    List (String × ℚ) :=
  (gateNodes t).map (fun g => (nameOf g, evalNode bes g))

/-- Heights of the gate names of the tree (a rank certifying acyclicity). -/
def heightMap (t : FTreeNode) : List (String × ℕ) :=
  (gateNodes t).map (fun g => (nameOf g, heightOf g))

mutual
theorem gateNodes_isGate : ∀ (t : FTreeNode), ∀ g ∈ gateNodes t, isGateB g = true
  | .be _ => by simp [gateNodes]
  | .gate n ty cs => by
    intro g hg
    rcases List.mem_cons.mp hg with h | h
    · subst h; rfl
    · exact gateNodes_isGateL cs g h

theorem gateNodes_isGateL : ∀ (l : FTreeList), ∀ g ∈ gateNodesL l, isGateB g = true
  | .nil => by simp [gateNodesL]
  | .cons t ts => by
    intro g hg
    rcases List.mem_append.mp hg with h | h
    · exact gateNodes_isGate t g h
    · exact gateNodes_isGateL ts g h
end

theorem evalListQ_toList (bes : List (String × ℚ)) :
    ∀ (l : FTreeList), evalListQ bes l = l.toList.map (evalNode bes)
  | .nil => rfl
  | .cons t ts => by
    simp [evalListQ, FTreeList.toList, evalListQ_toList bes ts]

theorem leavesL_toList :
    ∀ (l : FTreeList), leavesL l = (l.toList.map leavesOf).flatten
  | .nil => rfl
  | .cons t ts => by
    simp [leavesL, FTreeList.toList, leavesL_toList ts]

theorem heightOf_le_heightL : ∀ (l : FTreeList), ∀ c ∈ l.toList,
    heightOf c ≤ heightL l
  | .nil => by simp [FTreeList.toList]
  | .cons t ts => by
    intro c hc
    rcases List.mem_cons.mp hc with h | h
    · subst h; simp [heightL]
    · exact le_trans (heightOf_le_heightL ts c h) (by simp [heightL])

/-- A gate member of a child list is one of the collected gate nodes. -/
theorem mem_gateNodesL_of_child : ∀ (l : FTreeList), ∀ c ∈ l.toList,
    isGateB c = true → c ∈ gateNodesL l
  | .nil => by simp [FTreeList.toList]
  | .cons t ts => by
    intro c hc hg
    rcases List.mem_cons.mp hc with h | h
    · subst h
      cases c with
      | be m => simp [isGateB] at hg
      | gate m ty cs => exact List.mem_append_left _ (by simp [gateNodes, gateNodesL])
    · exact List.mem_append_right _ (mem_gateNodesL_of_child ts c h hg)

/-- A leaf member of a child list contributes its name to the leaves. -/
theorem mem_leavesL_of_child : ∀ (l : FTreeList), ∀ m : String,
    FTreeNode.be m ∈ l.toList → m ∈ leavesL l
  | .nil => by simp [FTreeList.toList]
  | .cons t ts => by
    intro m hm
    rcases List.mem_cons.mp hm with h | h
    · exact List.mem_append_left _ (by rw [← h]; simp [leavesOf])
    · exact List.mem_append_right _ (mem_leavesL_of_child ts m h)

mutual
/-- The children of any collected gate node are closed under the
collection: gate children are again collected gate nodes, leaf
children are collected leaves. -/
theorem childrenClosed : ∀ (t : FTreeNode), ∀ g ∈ gateNodes t, ∀ c ∈ childNodes g,
    (isGateB c = true → c ∈ gateNodes t) ∧
    (∀ m, c = .be m → m ∈ leavesOf t)
  | .be _ => by simp [gateNodes]
  | .gate n ty cs => by
    intro g hg c hc
    rcases List.mem_cons.mp hg with h | h
    · subst h
      simp only [childNodes] at hc
      constructor
      · intro hgate
        exact List.mem_cons_of_mem _ (mem_gateNodesL_of_child cs c hc hgate)
      · intro m hm
        subst hm
        simpa [leavesOf] using mem_leavesL_of_child cs m hc
    · have := childrenClosedL cs g h c hc
      refine ⟨fun hgate => List.mem_cons_of_mem _ (this.1 hgate), ?_⟩
      intro m hm
      simpa [leavesOf] using this.2 m hm

theorem childrenClosedL : ∀ (l : FTreeList), ∀ g ∈ gateNodesL l, ∀ c ∈ childNodes g,
    (isGateB c = true → c ∈ gateNodesL l) ∧
    (∀ m, c = .be m → m ∈ leavesL l)
  | .nil => by simp [gateNodesL]
  | .cons t ts => by
    intro g hg c hc
    rcases List.mem_append.mp hg with h | h
    · have := childrenClosed t g h c hc
      exact ⟨fun hgate => List.mem_append_left _ (this.1 hgate),
        fun m hm => List.mem_append_left _ (this.2 m hm)⟩
    · have := childrenClosedL ts g h c hc
      exact ⟨fun hgate => List.mem_append_right _ (this.1 hgate),
        fun m hm => List.mem_append_right _ (this.2 m hm)⟩
end

theorem keysPair {α : Type} (t : FTreeNode) (f : FTreeNode → α) :
    ((gateNodes t).map (fun g => (nameOf g, f g))).map Prod.fst =
      (gateNodes t).map nameOf := by
  rw [List.map_map]
  rfl

theorem dlook_gmap {α : Type} (t : FTreeNode) (f : FTreeNode → α)
    (hnd : ((gateNodes t).map nameOf).Nodup) (g : FTreeNode)
    (hgm : g ∈ gateNodes t) :
    dlook ((gateNodes t).map (fun g => (nameOf g, f g))) (nameOf g) =
      some (f g) :=
  dlook_eq_of_mem _ _ _ (by rw [keysPair]; exact hnd)
    (List.mem_map.mpr ⟨g, hgm, rfl⟩)

theorem dlook_gmap_isSome_iff {α : Type} (t : FTreeNode) (f : FTreeNode → α)
    (e : String) :
    (dlook ((gateNodes t).map (fun g => (nameOf g, f g))) e).isSome ↔
      e ∈ (gateNodes t).map nameOf := by
  rw [dlook_isSome_iff_mem_keys, keysPair]

/-- `solve_dfs` on a tree-shaped fault tree computes the reference
value `evalNode` of every gate. -/
theorem solve_dfs_tree (t : FTreeNode) (bes : List (String × ℚ))
    (hnd : ((gateNodes t).map nameOf).Nodup)
    (hg : ∀ g ∈ gateNodes t, dlook bes (nameOf g) = none)
    (hl : ∀ m ∈ leavesOf t, (dlook bes m).isSome)
    (hty : ∀ g ∈ gateNodes t, typeOf g = "AND" ∨ typeOf g = "OR") :
    ∃ rm', solve_dfs ((succDict t).length + 1) (succDict t) (gatesMap t) bes []
        = some rm' ∧
      ∀ g ∈ gateNodes t, dlook rm' (nameOf g) = some (.val (evalNode bes g)) := by
  classical
  set V : String → ℚ := fun k => (dlook (nodeVals bes t) k).getD 0 with hV
  set rk : String → ℕ := fun k => (dlook (heightMap t) k).getD 0 with hrk
  have hVg : ∀ g ∈ gateNodes t, V (nameOf g) = evalNode bes g := by
    intro g hgm
    rw [hV]
    simp only [nodeVals]
    rw [dlook_gmap t (evalNode bes) hnd g hgm]
    rfl
  have hrkg : ∀ g ∈ gateNodes t, rk (nameOf g) = heightOf g := by
    intro g hgm
    rw [hrk]
    simp only [heightMap]
    rw [dlook_gmap t heightOf hnd g hgm]
    rfl
  -- the value `solve_ft_gate` sees for any child of a collected gate
  have hchildval : ∀ g ∈ gateNodes t, ∀ c ∈ childNodes g,
      cval bes V (nameOf c) = evalNode bes c := by
    intro g hgm c hc
    cases c with
    | be m =>
      have hm := (childrenClosed t g hgm _ hc).2 m rfl
      obtain ⟨p, hp⟩ := Option.isSome_iff_exists.mp (hl m hm)
      simp [cval, nameOf, evalNode, hp]
    | gate m ty cs =>
      have hcg : FTreeNode.gate m ty cs ∈ gateNodes t :=
        (childrenClosed t g hgm _ hc).1 rfl
      have hbnone := hg _ hcg
      rw [cval]
      rw [hbnone]
      exact hVg _ hcg
  obtain ⟨rm', hrun, hvals, hfull⟩ := solve_dfs_correct
    ((succDict t).length + 1) (succDict t) (gatesMap t) bes [] V rk
    (by omega)
    (by rw [succDict, keysPair]; exact hnd)
    (by
      intro p hp
      obtain ⟨g, hgm, hpe⟩ := List.mem_map.mp hp
      subst hpe
      refine ⟨typeOf g, ?_, hty g hgm, ?_⟩
      · exact dlook_gmap t typeOf hnd g hgm
      · rw [hVg g hgm]
        cases g with
        | be n =>
          have := gateNodes_isGate t _ hgm
          simp [isGateB] at this
        | gate n ty cs =>
          have hchildeq : ∀ c ∈ cs.toList,
              cval bes V (nameOf c) = evalNode bes c :=
            fun c hc => hchildval _ hgm c (by simpa [childNodes] using hc)
          simp only [evalNode, typeOf, childNames, specGate, andVal, orVal,
            evalListQ_toList, List.foldl_map]
          by_cases hand : ty = "AND"
          · simp only [hand, if_true]
            exact List.foldl_ext _ _ _ (fun a c hc => by rw [hchildeq c hc])
          · simp only [hand, if_false]
            exact List.foldl_ext _ _ _ (fun a c hc => by rw [hchildeq c hc]))
    (by
      intro p hp e he
      obtain ⟨g, hgm, hpe⟩ := List.mem_map.mp hp
      subst hpe
      cases g with
      | be n =>
        have := gateNodes_isGate t _ hgm
        simp [isGateB] at this
      | gate n ty cs =>
        simp only [childNames] at he
        obtain ⟨c, hc, hce⟩ := List.mem_map.mp he
        subst hce
        cases c with
        | be m =>
          right
          exact hl m ((childrenClosed t _ hgm _ (by simpa [childNodes] using hc)).2 m rfl)
        | gate m ty' cs' =>
          left
          have hcg : FTreeNode.gate m ty' cs' ∈ gateNodes t :=
            (childrenClosed t _ hgm _ (by simpa [childNodes] using hc)).1 rfl
          constructor
          · rw [gatesMap, dlook_gmap_isSome_iff]
            exact List.mem_map.mpr ⟨_, hcg, rfl⟩
          · exact hg _ hcg)
    (by
      intro p hp e he hgate
      left
      rw [gatesMap, dlook_gmap_isSome_iff] at hgate
      rw [succDict, dlook_gmap_isSome_iff]
      exact hgate)
    (by
      intro p hp e he hgate hsd
      obtain ⟨g, hgm, hpe⟩ := List.mem_map.mp hp
      subst hpe
      cases g with
      | be n =>
        have := gateNodes_isGate t _ hgm
        simp [isGateB] at this
      | gate n ty cs =>
        simp only [childNames] at he
        obtain ⟨c, hc, hce⟩ := List.mem_map.mp he
        subst hce
        have hcmem : c ∈ childNodes (FTreeNode.gate n ty cs) := by
          simpa [childNodes] using hc
        cases c with
        | be m =>
          exfalso
          rw [gatesMap, dlook_gmap_isSome_iff] at hgate
          obtain ⟨g', hg', hge⟩ := List.mem_map.mp hgate
          have h1 := hg g' hg'
          have h2 := hl m ((childrenClosed t _ hgm _ hcmem).2 m rfl)
          rw [hge] at h1
          simp only [nameOf] at h1
          rw [h1] at h2
          simp at h2
        | gate m ty' cs' =>
          have hcg : FTreeNode.gate m ty' cs' ∈ gateNodes t :=
            (childrenClosed t _ hgm _ hcmem).1 rfl
          rw [hrkg _ hcg, hrkg _ hgm]
          simp only [nameOf, heightOf]
          have := heightOf_le_heightL cs _ hc
          simp only [heightOf] at this
          omega)
    (by intro k g h; simp at h)
  refine ⟨rm', hrun, ?_⟩
  intro g hgm
  have : dlook rm' (nameOf g) = some (.val (V (nameOf g))) := by
    apply hfull
    left
    rw [succDict, dlook_gmap_isSome_iff]
    exact List.mem_map.mpr ⟨g, hgm, rfl⟩
  rw [this, hVg g hgm]

/-! ### Closed forms for the AND and OR accumulations -/

theorem foldl_mul_eq (l : List ℚ) : ∀ a : ℚ,
    l.foldl (fun x y => x * y) a = a * l.prod := by
  induction l with
  | nil => intro a; simp
  | cons x xs ih =>
    intro a
    simp only [List.foldl_cons, List.prod_cons, ih]
    ring

theorem andVal_eq_prod (l : List ℚ) : andVal l = l.prod := by
  rw [andVal, foldl_mul_eq]
  ring

theorem foldl_or_eq (l : List ℚ) : ∀ a : ℚ,
    l.foldl (fun x y => x + (1 - x) * y) a =
      1 - (1 - a) * (l.map (fun y => 1 - y)).prod := by
  induction l with
  | nil => intro a; simp
  | cons x xs ih =>
    intro a
    simp only [List.foldl_cons, List.map_cons, List.prod_cons, ih]
    ring

theorem orVal_eq_prod (l : List ℚ) :
    orVal l = 1 - (l.map (fun y => 1 - y)).prod := by
  rw [orVal, foldl_or_eq]
  ring

/-- Looking up every key of a dict with distinct keys recovers the values. -/
theorem map_keys_dlook (bes : List (String × ℚ)) (h : ℚ → ℚ)
    (hkeys : (bes.map Prod.fst).Nodup) :
    (bes.map Prod.fst).map (fun k => h ((dlook bes k).getD 0)) =
      bes.map (fun p => h p.2) := by
  induction bes with
  | nil => simp
  | cons p rest ih =>
    simp only [List.map_cons, List.nodup_cons] at hkeys ⊢
    congr 1
    · simp
    · have : ∀ k ∈ rest.map Prod.fst, dlook (p :: rest) k = dlook rest k := by
        intro k hk
        have hp : p.1 ≠ k := fun hc => hkeys.1 (hc ▸ hk)
        simp [hp]
      rw [← ih hkeys.2]
      exact List.map_congr_left (fun k hk => by rw [this k hk])

theorem map_keys_dlook_id (bes : List (String × ℚ))
    (hkeys : (bes.map Prod.fst).Nodup) :
    (bes.map Prod.fst).map (fun k => (dlook bes k).getD 0) =
      bes.map Prod.snd := by
  have := map_keys_dlook bes id hkeys
  simpa using this

theorem map_keys_dlook_compl (bes : List (String × ℚ))
    (hkeys : (bes.map Prod.fst).Nodup) :
    (bes.map Prod.fst).map (fun k => 1 - (dlook bes k).getD 0) =
      bes.map (fun p => 1 - p.2) := by
  have := map_keys_dlook bes (fun x => 1 - x) hkeys
  simpa using this

theorem foldl_or_name_eq (edges : List String) (c : String → ℚ) : ∀ a : ℚ,
    edges.foldl (fun x e => x + (1 - x) * c e) a =
      1 - (1 - a) * (edges.map (fun e => 1 - c e)).prod := by
  induction edges with
  | nil => intro a; simp
  | cons e es ih =>
    intro a
    simp only [List.foldl_cons, List.map_cons, List.prod_cons, ih]
    ring

mutual
/-- In an all-AND tree the value of every node is the product of the
probabilities of its leaves. -/
theorem evalNode_allAnd (bes : List (String × ℚ)) :
    ∀ t : FTreeNode, (∀ g ∈ gateNodes t, typeOf g = "AND") →
      evalNode bes t = ((leavesOf t).map (fun m => (dlook bes m).getD 0)).prod
  | .be n => fun _ => by simp [evalNode, leavesOf]
  | .gate n ty cs => fun h => by
    have hty : ty = "AND" := by
      have := h _ (List.mem_cons_self _ _)
      simpa [typeOf] using this
    have hrest : ∀ g ∈ gateNodesL cs, typeOf g = "AND" :=
      fun g hg => h g (List.mem_cons_of_mem _ hg)
    simp only [evalNode, hty, if_true, andVal_eq_prod, leavesOf]
    exact evalList_allAnd bes cs hrest

theorem evalList_allAnd (bes : List (String × ℚ)) :
    ∀ l : FTreeList, (∀ g ∈ gateNodesL l, typeOf g = "AND") →
      (evalListQ bes l).prod =
        ((leavesL l).map (fun m => (dlook bes m).getD 0)).prod
  | .nil => fun _ => by simp [evalListQ, leavesL]
  | .cons t ts => fun h => by
    have h1 : ∀ g ∈ gateNodes t, typeOf g = "AND" :=
      fun g hg => h g (List.mem_append_left _ hg)
    have h2 : ∀ g ∈ gateNodesL ts, typeOf g = "AND" :=
      fun g hg => h g (List.mem_append_right _ hg)
    simp only [evalListQ, leavesL, List.prod_cons, List.map_append,
      List.prod_append]
    rw [evalNode_allAnd bes t h1, evalList_allAnd bes ts h2]
end

mutual
/-- In an all-OR tree the value of every node is the union probability
`1 − ∏ (1 − pᵢ)` over its leaves. -/
theorem evalNode_allOr (bes : List (String × ℚ)) :
    ∀ t : FTreeNode, (∀ g ∈ gateNodes t, typeOf g = "OR") →
      evalNode bes t =
        1 - ((leavesOf t).map (fun m => 1 - (dlook bes m).getD 0)).prod
  | .be n => fun _ => by simp [evalNode, leavesOf]
  | .gate n ty cs => fun h => by
    have hty : ty = "OR" := by
      have := h _ (List.mem_cons_self _ _)
      simpa [typeOf] using this
    have hrest : ∀ g ∈ gateNodesL cs, typeOf g = "OR" :=
      fun g hg => h g (List.mem_cons_of_mem _ hg)
    have hne : ty ≠ "AND" := by rw [hty]; decide
    simp only [evalNode, hne, if_false, orVal_eq_prod, leavesOf]
    rw [evalList_allOr bes cs hrest]

theorem evalList_allOr (bes : List (String × ℚ)) :
    ∀ l : FTreeList, (∀ g ∈ gateNodesL l, typeOf g = "OR") →
      ((evalListQ bes l).map (fun y => 1 - y)).prod =
        ((leavesL l).map (fun m => 1 - (dlook bes m).getD 0)).prod
  | .nil => fun _ => by simp [evalListQ, leavesL]
  | .cons t ts => fun h => by
    have h1 : ∀ g ∈ gateNodes t, typeOf g = "OR" :=
      fun g hg => h g (List.mem_append_left _ hg)
    have h2 : ∀ g ∈ gateNodesL ts, typeOf g = "OR" :=
      fun g hg => h g (List.mem_append_right _ hg)
    simp only [evalListQ, leavesL, List.map_cons, List.prod_cons,
      List.map_append, List.prod_append]
    rw [evalNode_allOr bes t h1, evalList_allOr bes ts h2]
    ring
end

/-- `solve_ft` on a tree-shaped fault tree returns the reference value of
the root gate as the top-event failure probability. -/
theorem solve_ft_top_tree (t : FTreeNode) (bes : List (String × ℚ))
    (hroot : isGateB t = true)
    (hnd : ((gateNodes t).map nameOf).Nodup)
    (hg : ∀ g ∈ gateNodes t, dlook bes (nameOf g) = none)
    (hl : ∀ m ∈ leavesOf t, (dlook bes m).isSome)
    (hty : ∀ g ∈ gateNodes t, typeOf g = "AND" ∨ typeOf g = "OR") :
    solve_ft_top (nameOf t) (succDict t) (gatesMap t) bes =
      some (.val (evalNode bes t)) := by
  obtain ⟨rm', hrun, hvals⟩ := solve_dfs_tree t bes hnd hg hl hty
  have hmem : t ∈ gateNodes t := by
    cases t with
    | be n => simp [isGateB] at hroot
    | gate n ty cs => exact List.mem_cons_self _ _
  rw [solve_ft_top, hrun]
  show some ((dlook rm' (nameOf t)).getD (GateResult.val 0)) =
    some (.val (evalNode bes t))
  rw [hvals t hmem]
  rfl

/-- C3: for every tree-shaped fault tree all of whose gates are AND
gates, with pairwise distinct gate names that do not collide with
basic-event names, and whose basic-event table consists exactly of the
tree's leaves (all numeric), the solved top-event failure probability
is the product of all basic-event probabilities; and in general an AND
gate evaluates to the product of its children's probabilities. -/
theorem solve_ft_allAnd_product (top : String) (cs : FTreeList)
    (bes : List (String × ℚ))
    (hnd : ((gateNodes (.gate top "AND" cs)).map nameOf).Nodup)
    (hg : ∀ g ∈ gateNodes (.gate top "AND" cs), dlook bes (nameOf g) = none)
    (hty : ∀ g ∈ gateNodes (.gate top "AND" cs), typeOf g = "AND")
    (hkeys : (bes.map Prod.fst).Nodup)
    (hperm : (bes.map Prod.fst).Perm (leavesOf (.gate top "AND" cs))) :
    solve_ft_top top (succDict (.gate top "AND" cs))
        (gatesMap (.gate top "AND" cs)) bes =
      some (.val ((bes.map Prod.snd).prod))
    ∧ ∀ (edges : List String) (bes' : List (String × ℚ))
        (rm : List (String × GateResult)) (c : String → ℚ),
        (∀ e ∈ edges, childValue e bes' rm = some (.val (c e))) →
        solve_ft_gate edges "AND" bes' rm = .val ((edges.map c).prod) := by
  constructor
  · have hl : ∀ m ∈ leavesOf (.gate top "AND" cs), (dlook bes m).isSome := by
      intro m hm
      rw [dlook_isSome_iff_mem_keys]
      exact hperm.mem_iff.mpr hm
    have h := solve_ft_top_tree (.gate top "AND" cs) bes rfl hnd hg hl
      (fun g hgm => Or.inl (hty g hgm))
    rw [show nameOf (.gate top "AND" cs) = top from rfl] at h
    rw [h]
    rw [evalNode_allAnd bes _ hty]
    have hmap := hperm.map (fun m => (dlook bes m).getD 0)
    rw [map_keys_dlook_id bes hkeys] at hmap
    rw [hmap.prod_eq]
  · intro edges bes' rm c hc
    rw [solve_ft_gate, if_pos rfl, andFold_eq edges bes' rm c 1 hc]
    congr 1
    rw [← andVal_eq_prod, andVal, List.foldl_map]

theorem solve_ft_allAnd_product_witness :
    solve_ft_top "t"
      (succDict (.gate "t" "AND" (.cons (.be "a") (.cons (.be "b") .nil))))
      (gatesMap (.gate "t" "AND" (.cons (.be "a") (.cons (.be "b") .nil))))
      [("a", 1/2), ("b", 1/3)] = some (.val ((1:ℚ)/6)) ∧
    solve_ft_gate ["a", "b"] "AND" [("a", (1:ℚ)/2), ("b", 1/3)] [] =
      .val ((1:ℚ)/6) := by
  have h := solve_ft_allAnd_product "t"
    (.cons (.be "a") (.cons (.be "b") .nil)) [("a", 1/2), ("b", 1/3)]
    (by simp [gateNodes, gateNodesL, nameOf])
    (by
      intro g hg
      simp only [gateNodes, gateNodesL, List.append_nil, List.mem_singleton] at hg
      subst hg
      simp +decide [dlook, nameOf])
    (by
      intro g hg
      simp only [gateNodes, gateNodesL, List.append_nil, List.mem_singleton] at hg
      subst hg
      rfl)
    (by simp)
    (by
      simp only [leavesOf, leavesL, List.map_cons, List.map_nil,
        List.append_nil]
      exact List.Perm.refl _)
  constructor
  · rw [h.1]
    norm_num
  · have h2 := h.2 ["a", "b"] [("a", 1/2), ("b", 1/3)] []
      (fun e => (dlook [("a", 1/2), ("b", 1/3)] e).getD 0)
      (by
        intro e he
        rcases List.mem_cons.mp he with he | he
        · subst he; simp +decide [childValue, dlook]
        · simp only [List.mem_singleton] at he
          subst he
          simp +decide [childValue, dlook])
    rw [h2]
    simp +decide [dlook]
    norm_num

/-- C4: the incremental OR accumulation `acc := acc + (1-acc) * p` over
children with resolvable probabilities equals `1 − ∏(1 − pᵢ)` and is
independent of the order of combination; and for tree-shaped fault
trees with only OR gates the top-event probability is `1 − ∏(1 − pᵢ)`
over all basic events, regardless of combination order. -/
theorem solve_ft_allOr_union (top : String) (cs : FTreeList)
    (bes : List (String × ℚ))
    (hnd : ((gateNodes (.gate top "OR" cs)).map nameOf).Nodup)
    (hg : ∀ g ∈ gateNodes (.gate top "OR" cs), dlook bes (nameOf g) = none)
    (hty : ∀ g ∈ gateNodes (.gate top "OR" cs), typeOf g = "OR")
    (hkeys : (bes.map Prod.fst).Nodup)
    (hperm : (bes.map Prod.fst).Perm (leavesOf (.gate top "OR" cs))) :
    solve_ft_top top (succDict (.gate top "OR" cs))
        (gatesMap (.gate top "OR" cs)) bes =
      some (.val (1 - (bes.map (fun p => 1 - p.2)).prod))
    ∧ (∀ (edges : List String) (bes' : List (String × ℚ))
        (rm : List (String × GateResult)) (c : String → ℚ),
        (∀ e ∈ edges, childValue e bes' rm = some (.val (c e))) →
        solve_ft_gate edges "OR" bes' rm =
          .val (1 - (edges.map (fun e => 1 - c e)).prod))
    ∧ (∀ (edges₁ edges₂ : List String) (bes' : List (String × ℚ))
        (rm : List (String × GateResult)) (c : String → ℚ),
        edges₁.Perm edges₂ →
        (∀ e ∈ edges₁, childValue e bes' rm = some (.val (c e))) →
        solve_ft_gate edges₁ "OR" bes' rm =
          solve_ft_gate edges₂ "OR" bes' rm) := by
  have hORgate : ∀ (edges : List String) (bes' : List (String × ℚ))
      (rm : List (String × GateResult)) (c : String → ℚ),
      (∀ e ∈ edges, childValue e bes' rm = some (.val (c e))) →
      solve_ft_gate edges "OR" bes' rm =
        .val (1 - (edges.map (fun e => 1 - c e)).prod) := by
    intro edges bes' rm c hc
    rw [solve_ft_gate, if_neg (by decide), if_pos rfl,
      orFold_eq edges bes' rm c 0 hc]
    congr 1
    rw [foldl_or_name_eq]
    norm_num
  refine ⟨?_, hORgate, ?_⟩
  · have hl : ∀ m ∈ leavesOf (.gate top "OR" cs), (dlook bes m).isSome := by
      intro m hm
      rw [dlook_isSome_iff_mem_keys]
      exact hperm.mem_iff.mpr hm
    have h := solve_ft_top_tree (.gate top "OR" cs) bes rfl hnd hg hl
      (fun g hgm => Or.inr (hty g hgm))
    rw [show nameOf (.gate top "OR" cs) = top from rfl] at h
    rw [h]
    rw [evalNode_allOr bes _ hty]
    have hmap := hperm.map (fun m => 1 - (dlook bes m).getD 0)
    rw [map_keys_dlook_compl bes hkeys] at hmap
    rw [hmap.prod_eq]
  · intro edges₁ edges₂ bes' rm c hpm hc
    have hc2 : ∀ e ∈ edges₂, childValue e bes' rm = some (.val (c e)) :=
      fun e he => hc e (hpm.mem_iff.mpr he)
    rw [hORgate edges₁ bes' rm c hc, hORgate edges₂ bes' rm c hc2]
    have := (hpm.map (fun e => 1 - c e)).prod_eq
    rw [this]

theorem solve_ft_allOr_union_witness :
    solve_ft_top "t"
      (succDict (.gate "t" "OR" (.cons (.be "a") (.cons (.be "b") .nil))))
      (gatesMap (.gate "t" "OR" (.cons (.be "a") (.cons (.be "b") .nil))))
      [("a", 1/2), ("b", 1/3)] = some (.val ((2:ℚ)/3)) ∧
    solve_ft_gate ["a", "b"] "OR" [("a", (1:ℚ)/2), ("b", 1/3)] [] =
      solve_ft_gate ["b", "a"] "OR" [("a", (1:ℚ)/2), ("b", 1/3)] [] := by
  have h := solve_ft_allOr_union "t"
    (.cons (.be "a") (.cons (.be "b") .nil)) [("a", 1/2), ("b", 1/3)]
    (by simp [gateNodes, gateNodesL, nameOf])
    (by
      intro g hg
      simp only [gateNodes, gateNodesL, List.append_nil, List.mem_singleton] at hg
      subst hg
      simp +decide [dlook, nameOf])
    (by
      intro g hg
      simp only [gateNodes, gateNodesL, List.append_nil, List.mem_singleton] at hg
      subst hg
      rfl)
    (by simp)
    (by
      simp only [leavesOf, leavesL, List.map_cons, List.map_nil,
        List.append_nil]
      exact List.Perm.refl _)
  constructor
  · rw [h.1]
    norm_num
  · exact h.2.2 ["a", "b"] ["b", "a"] [("a", 1/2), ("b", 1/3)] []
      (fun e => (dlook [("a", 1/2), ("b", 1/3)] e).getD 0)
      (by decide)
      (by
        intro e he
        rcases List.mem_cons.mp he with he | he
        · subst he; simp +decide [childValue, dlook]
        · simp only [List.mem_singleton] at he
          subst he
          simp +decide [childValue, dlook])

/-- C10: for a pending successor dict whose keys are gates with known
types, whose gate children all resolve to a basic event or a gate that
is itself pending or already evaluated, and which admits a rank
function decreasing along gate-child edges (acyclicity), the fixpoint
recursion `solve_dfs` terminates within one call per pending gate plus
a final call on the empty dict. -/
theorem solve_dfs_terminates (sd : List (String × List String))
    (ft_gates : List (String × String)) (bes : List (String × ℚ))
    (rm : List (String × GateResult)) (rk : String → ℕ)
    (hnd : (sd.map Prod.fst).Nodup)
    (hkeys : ∀ p ∈ sd, (dlook ft_gates p.1).isSome)
    (hresolve : ∀ p ∈ sd, ∀ e ∈ p.2,
      (dlook ft_gates e).isSome ∨ (dlook bes e).isSome)
    (hcov : ∀ p ∈ sd, ∀ e ∈ p.2, (dlook ft_gates e).isSome →
      ((dlook sd e).isSome ∨ (dlook rm e).isSome))
    (hrank : ∀ p ∈ sd, ∀ e ∈ p.2, (dlook ft_gates e).isSome →
      (dlook sd e).isSome → rk e < rk p.1) :
    ∃ rm', solve_dfs (sd.length + 1) sd ft_gates bes rm = some rm' := by
  suffices h : ∀ (fuel : ℕ) (sd : List (String × List String))
      (rm : List (String × GateResult)),
      sd.length < fuel →
      (sd.map Prod.fst).Nodup →
      (∀ p ∈ sd, (dlook ft_gates p.1).isSome) →
      (∀ p ∈ sd, ∀ e ∈ p.2, (dlook ft_gates e).isSome →
        ((dlook sd e).isSome ∨ (dlook rm e).isSome)) →
      (∀ p ∈ sd, ∀ e ∈ p.2, (dlook ft_gates e).isSome →
        (dlook sd e).isSome → rk e < rk p.1) →
      ∃ rm', solve_dfs fuel sd ft_gates bes rm = some rm' by
    exact h (sd.length + 1) sd rm (by omega) hnd hkeys hcov hrank
  intro fuel
  induction fuel with
  | zero => intro sd rm h; omega
  | succ fuel ih =>
    intro sd rm hfuel hnd hkeys hcov hrank
    rcases eq_or_ne sd [] with hsd | hsd
    · subst hsd
      exact ⟨rm, by simp [solve_dfs]⟩
    · have hready := exists_ready sd ft_gates rm rk hsd hcov hrank
      have hfind : (sd.find? (fun p => isReady p.2 ft_gates rm)).isSome := by
        rw [List.find?_isSome]
        obtain ⟨p, hp, hr⟩ := hready
        exact ⟨p, hp, hr⟩
      obtain ⟨⟨node, edges⟩, hfound⟩ := Option.isSome_iff_exists.mp hfind
      have hmem : (node, edges) ∈ sd := List.mem_of_find?_eq_some hfound
      obtain ⟨gt, hgt⟩ := Option.isSome_iff_exists.mp (hkeys (node, edges) hmem)
      have hlooknode : dlook sd node = some edges :=
        dlook_eq_of_mem sd node edges hnd hmem
      have hlen : (dictDel sd node).length < sd.length :=
        dictDel_length_lt sd node (by simp [hlooknode])
      have hsub : ∀ p ∈ dictDel sd node, p ∈ sd :=
        fun p hp => List.mem_of_mem_filter hp
      set rmv := dictSet rm node
        (solve_ft_gate edges gt bes rm) with hrmv
      obtain ⟨rm', hrun⟩ := ih (dictDel sd node) rmv
        (by omega)
        (dictDel_keys_nodup sd node hnd)
        (fun p hp => hkeys p (hsub p hp))
        (by
          intro p hp e he hg
          by_cases hk : e = node
          · subst hk
            right
            simp [hrmv]
          · rw [dlook_dictDel_ne _ _ _ hk, hrmv,
              dlook_dictSet_ne _ _ _ _ hk]
            exact hcov p (hsub p hp) e he hg)
        (by
          intro p hp e he hg hey
          by_cases hk : e = node
          · subst hk
            rw [dlook_dictDel_self] at hey
            simp at hey
          · rw [dlook_dictDel_ne _ _ _ hk] at hey
            exact hrank p (hsub p hp) e he hg hey)
      refine ⟨rm', ?_⟩
      rw [solve_dfs]
      have hne : sd.isEmpty = false := by
        cases sd
        · exact absurd rfl hsd
        · rfl
      rw [hne]
      simp only [Bool.false_eq_true, if_false, hfound, hgt]
      exact hrun

theorem solve_dfs_terminates_witness :
    ∃ rm', solve_dfs 3
      [("t", ["a", "g"]), ("g", ["b"])] [("t", "OR"), ("g", "AND")]
      [("a", (1:ℚ)/2), ("b", 1/3)] [] = some rm' := by
  have h := solve_dfs_terminates [("t", ["a", "g"]), ("g", ["b"])]
    [("t", "OR"), ("g", "AND")] [("a", (1:ℚ)/2), ("b", 1/3)] []
    (fun k => if k = "t" then 1 else 0)
    (by decide) (by decide) (by decide) (by decide) (by decide)
  simpa using h

/-! ### Markov chain model (`MarkovChain`, dra_reliability_models.py)

Transition weights are Python values that are either numbers or
strings (symbolic placeholders); `TransValue` models both.  The error
sentinel `False` produced by a failed fault-tree solve is numerically
`0` wherever it is used (arithmetic, NumPy assignment), so it is
modelled as the number `0`. -/

inductive TransValue where
  | num : ℚ → TransValue
  | str : String → TransValue
deriving DecidableEq, Repr

/-- A value of the `edges` dict: `add_edges` maps every transient state
to a list of successors and every absorbing state to the string equal
to its own name (`self.edges[a_state] = a_state`). -/
inductive EdgeTarget where
  | selfLoop : String → EdgeTarget
  | succs : List String → EdgeTarget
deriving DecidableEq, Repr

/-- `add_absorbing_states` (lines 114-120): one `<state>_failure` per
state, plus `done` when the flag is set. -/
def add_absorbing_states (states : List String) (done_state : Bool) :
    List String :=
  states.map (fun s => s ++ "_failure") ++ (if done_state then ["done"] else [])

/-- The successor list `add_edges` builds for state `i`.  For `i` not
last: the next state followed by every absorbing state containing
`states[i]` as a substring (Python `in`).  For the last state: the
matching absorbing states, then `done` when present, then `states[0]`
when `repeat_info == 1`. -/
def edgesRow (states abss : List String) (repeat_info : ℕ) (i : ℕ) :
    List String :=
  if i + 1 < states.length then
    states.getD (i + 1) "" :: abss.filter (fun a => pyIn (states.getD i "") a)
  else
    abss.filter (fun a => pyIn (states.getD i "") a)
      ++ (if "done" ∈ abss then ["done"] else [])
      ++ (if repeat_info = 1 then [states.getD 0 ""] else [])

/-- `add_edges` (lines 149-174): the loop over `range(len(states))`
(the `try` branch for `i < last`, the `except IndexError` branch for
the last index), followed by the absorbing self-loop assignments. -/
def add_edges (states abss : List String) (repeat_info : ℕ) :
    List (String × EdgeTarget) :=
  let d := (List.range states.length).foldl
    (fun d i =>
      dictSet d (states.getD i "")
        (.succs (edgesRow states abss repeat_info i))) []
  abss.foldl (fun d a => dictSet d a (.selfLoop a)) d

/-- The symbolic label `add_transitions` gives an edge from
`from_state` to `s`: the lowercased destination when the destination
contains `failure`, the survival placeholder otherwise. -/
def labelFor (from_state s : String) : TransValue :=
  if pyIn "failure" s then .str (pyLower s)
  else .str ("1 - " ++ pyLower from_state ++ "_failure")

/-- One iteration of the `add_transitions` loop for one edges entry.
The `from_state == to_states` comparison of the Python code holds
exactly for the string-valued absorbing entries (which `add_edges`
always creates with value equal to the key), modelled by matching on
the `EdgeTarget` constructor. -/
def add_transitions_step (trans : List (String × List (String × TransValue)))
    (p : String × EdgeTarget) : List (String × List (String × TransValue)) :=
  let trans := if (dlook trans p.1).isSome then trans else dictSet trans p.1 []
  match p.2 with
  | .selfLoop a =>
    dictSet trans p.1 (dictSet ((dlook trans p.1).getD []) a (.str "1"))
  | .succs l =>
    l.foldl (fun tr s =>
      dictSet tr p.1 (dictSet ((dlook tr p.1).getD []) s (labelFor p.1 s)))
      trans

/-- `add_transitions` (lines 201-215). -/
def add_transitions (edges : List (String × EdgeTarget))
    (trans : List (String × List (String × TransValue))) :
    List (String × List (String × TransValue)) :=
  edges.foldl add_transitions_step trans

/-- The `MarkovChain` object state relevant to the solver. -/
structure MCChain where
  states : List String
  absorbing_states : List String
  edges : List (String × EdgeTarget)
  transitions : List (String × List (String × TransValue))
deriving Repr

/-- `auto_create_mc` (lines 96-102). -/
def auto_create_mc (states : List String) (done_state : Bool)
    (repeat_info : ℕ) : MCChain :=
  let abss := add_absorbing_states states done_state
  let edges := add_edges states abss repeat_info
  { states := states
    absorbing_states := abss
    edges := edges
    transitions := add_transitions edges [] }

/-- `add_single_transition` (lines 194-199): the inner mapping for
`from_state` is created only when the whole `transitions` dict is
empty; otherwise `self.transitions[from_state]` raises `KeyError`
(modelled by `none`) for an unknown `from_state`. -/
def add_single_transition (trans : List (String × List (String × TransValue)))
    (from_state to_state : String) (v : TransValue) :
    Option (List (String × List (String × TransValue))) :=
  let trans := if trans.isEmpty then dictSet trans from_state [] else trans
  match dlook trans from_state with
  | none => none
  | some inner => some (dictSet trans from_state (dictSet inner to_state v))

/-- C8: on a non-empty transitions dict, `add_single_transition` raises
`KeyError` for a `from_state` that is not already a key (the inner
mapping is created only when the whole dict is empty); when
`from_state` is a key the call sets `transitions[from_state][to_state]`
to the value and returns normally. -/
theorem add_single_transition_spec
    (trans : List (String × List (String × TransValue)))
    (f t : String) (v : TransValue) :
    (trans ≠ [] → dlook trans f = none →
      add_single_transition trans f t v = none)
    ∧ (∀ inner, dlook trans f = some inner →
      add_single_transition trans f t v =
        some (dictSet trans f (dictSet inner t v)) ∧
      lookup2 (dictSet trans f (dictSet inner t v)) f t = some v) := by
  constructor
  · intro hne hnone
    have hempty : trans.isEmpty = false := by
      cases trans
      · exact absurd rfl hne
      · rfl
    rw [add_single_transition]
    simp only [hempty, Bool.false_eq_true, if_false, hnone]
  · intro inner hsome
    have hne : trans ≠ [] := by
      intro hc
      rw [hc] at hsome
      simp at hsome
    have hempty : trans.isEmpty = false := by
      cases trans
      · exact absurd rfl hne
      · rfl
    constructor
    · rw [add_single_transition]
      simp only [hempty, Bool.false_eq_true, if_false, hsome]
    · rw [lookup2, dlook_dictSet_self, Option.some_bind, dlook_dictSet_self]

theorem add_single_transition_spec_witness :
    add_single_transition [("x", [("y", .str "1")])] "z" "y" (.str "1") = none
    ∧ add_single_transition [("x", [("y", .str "1")])] "x" "w" (.num 0) =
      some [("x", [("y", TransValue.str "1"), ("w", .num 0)])]
    ∧ lookup2 [("x", [("y", TransValue.str "1"), ("w", TransValue.num 0)])]
        "x" "w" = some (.num 0) := by
  have h := add_single_transition_spec [("x", [("y", .str "1")])] "z" "y"
    (.str "1")
  have h2 := add_single_transition_spec [("x", [("y", .str "1")])] "x" "w"
    (.num 0)
  refine ⟨h.1 (by decide) (by decide), ?_, ?_⟩
  · rw [(h2.2 [("y", .str "1")] (by decide)).1]
    decide
  · have := (h2.2 [("y", .str "1")] (by decide)).2
    convert this using 2

/-- C6 counterexample: for the distinct state names `["A", "AB"]`
(no done state, no repeat) the substring matching of `add_edges` gives
state `A` an extra edge to `AB_failure` (because `"A" in "AB_failure"`),
so `A` does not point just to the next state and its own failure
state; and `add_transitions` labels the failure-bound edge with the
lowercased name `"a_failure"`, not the destination absorbing-state
name `"A_failure"`. -/
theorem auto_create_mc_counterexample :
    dlook (auto_create_mc ["A", "AB"] false 0).edges "A" =
      some (.succs ["AB", "A_failure", "AB_failure"])
    ∧ dlook (auto_create_mc ["A", "AB"] false 0).edges "A" ≠
      some (.succs ["AB", "A_failure"])
    ∧ lookup2 (auto_create_mc ["A", "AB"] false 0).transitions "A" "A_failure" =
      some (.str "a_failure")
    ∧ lookup2 (auto_create_mc ["A", "AB"] false 0).transitions "A" "A_failure" ≠
      some (.str "A_failure") := by
  refine ⟨?_, ?_, ?_, ?_⟩ <;> decide

/-! ### String facts for the auto-created chain -/

theorem string_data_append (a b : String) : (a ++ b).data = a.data ++ b.data :=
  rfl

theorem string_eq_of_data (a b : String) (h : a.data = b.data) : a = b := by
  cases a
  cases b
  simp only at h
  rw [h]

theorem pyIn_self_append (s t : String) : pyIn s (s ++ t) = true := by
  rw [pyIn, decide_eq_true_iff, string_data_append]
  exact ⟨[], t.data, by simp⟩

theorem pyIn_refl (s : String) : pyIn s s = true := by
  rw [pyIn, decide_eq_true_iff]

theorem pyIn_failure_append (s : String) :
    pyIn "failure" (s ++ "_failure") = true := by
  rw [pyIn, decide_eq_true_iff, string_data_append]
  refine ⟨s.data ++ ['_'], [], ?_⟩
  have h : ("_failure" : String).data = '_' :: ("failure" : String).data := by
    decide
  rw [h]
  simp

theorem pyLower_append (a b : String) :
    pyLower (a ++ b) = pyLower a ++ pyLower b := by
  apply string_eq_of_data
  show ((a ++ b).data).map Char.toLower = (pyLower a ++ pyLower b).data
  rw [string_data_append, List.map_append]
  rfl

theorem append_failure_inj (s s' : String)
    (h : s ++ "_failure" = s' ++ "_failure") : s = s' := by
  apply string_eq_of_data
  have hd := congrArg String.data h
  rw [string_data_append, string_data_append] at hd
  exact List.append_cancel_right hd

theorem failure_append_ne_done (s : String) : s ++ "_failure" ≠ "done" := by
  intro h
  have := pyIn_failure_append s
  rw [h] at this
  have : pyIn "failure" "done" = true := this
  exact absurd this (by decide)

theorem filter_over_map {α β : Type} (l : List α) (f : α → β) (p : β → Bool) :
    (l.map f).filter p = (l.filter (fun x => p (f x))).map f := by
  induction l with
  | nil => simp
  | cons x xs ih =>
    by_cases h : p (f x) = true <;>
      simp [List.filter_cons, h, ih]

theorem filter_eq_singleton {α : Type} (l : List α) (a : α) (p : α → Bool)
    (hnd : l.Nodup) (ha : a ∈ l) (hp : ∀ b ∈ l, (p b = true ↔ b = a)) :
    l.filter p = [a] := by
  induction l with
  | nil => simp at ha
  | cons x xs ih =>
    simp only [List.nodup_cons] at hnd
    rcases List.mem_cons.mp ha with h | h
    · subst h
      have hx : p a = true := (hp a (List.mem_cons_self _ _)).mpr rfl
      rw [List.filter_cons, if_pos hx]
      have hrest : xs.filter p = [] := by
        rw [List.filter_eq_nil_iff]
        intro b hb
        intro hpb
        have := (hp b (List.mem_cons_of_mem _ hb)).mp hpb
        subst this
        exact hnd.1 hb
      rw [hrest]
    · have hx : ¬(p x = true) := by
        intro hpx
        have := (hp x (List.mem_cons_self _ _)).mp hpx
        subst this
        exact hnd.1 h
      rw [List.filter_cons, if_neg hx]
      exact ih hnd.2 h
        (fun b hb => hp b (List.mem_cons_of_mem _ hb))

/-! ### Fresh-key fold lemmas -/

theorem foldl_dictSet_fresh_append {α : Type} (l : List String)
    (f : String → α) :
    ∀ (d : List (String × α)), l.Nodup → (∀ a ∈ l, dlook d a = none) →
      l.foldl (fun d a => dictSet d a (f a)) d =
        d ++ l.map (fun a => (a, f a)) := by
  induction l with
  | nil => intro d _ _; simp
  | cons a rest ih =>
    intro d hnd hfresh
    simp only [List.nodup_cons] at hnd
    simp only [List.foldl_cons, List.map_cons]
    rw [dictSet_fresh d a (f a) (hfresh a (List.mem_cons_self _ _))]
    rw [ih _ hnd.2 ?_]
    · simp
    · intro b hb
      rw [dlook_append, hfresh b (List.mem_cons_of_mem _ hb)]
      have hne : a ≠ b := fun hc => hnd.1 (hc ▸ hb)
      simp [hne]

theorem foldl_range_dictSet {α : Type} (n : ℕ) (key : ℕ → String)
    (val : ℕ → α) (hinj : ∀ i j, i < n → j < n → key i = key j → i = j) :
    (List.range n).foldl (fun d i => dictSet d (key i) (val i)) [] =
      (List.range n).map (fun i => (key i, val i)) := by
  induction n with
  | zero => simp
  | succ n ih =>
    rw [List.range_succ, List.foldl_append, List.map_append]
    rw [ih (fun i j hi hj => hinj i j (by omega) (by omega))]
    simp only [List.foldl_cons, List.foldl_nil, List.map_cons, List.map_nil]
    rw [dictSet_fresh]
    rw [dlook_eq_none_iff, List.map_map]
    intro hc
    obtain ⟨i, hi, hie⟩ := List.mem_map.mp hc
    rw [List.mem_range] at hi
    have := hinj i n (by omega) (by omega) hie
    omega

theorem map_update_of_fresh {α : Type} (d : List (String × α)) (k : String)
    (v : α) (h : dlook d k = none) :
    d.map (fun p => if p.1 = k then (k, v) else p) = d := by
  induction d with
  | nil => simp
  | cons p rest ih =>
    by_cases hp : p.1 = k
    · rw [dlook_cons, if_pos hp] at h
      simp at h
    · rw [dlook_cons, if_neg hp] at h
      simp only [List.map_cons, if_neg hp]
      rw [ih h]

theorem dictSet_append_last {α : Type} (d : List (String × α)) (k : String)
    (x y : α) (h : dlook d k = none) :
    dictSet (d ++ [(k, x)]) k y = d ++ [(k, y)] := by
  rw [dictSet, if_pos (by rw [dlook_append, h]; simp)]
  rw [List.map_append, map_update_of_fresh d k y h]
  simp

theorem succs_fold (l : List String) (f : String) :
    ∀ (d : List (String × List (String × TransValue)))
      (inner₀ : List (String × TransValue)), dlook d f = none →
      l.foldl (fun tr s =>
          dictSet tr f (dictSet ((dlook tr f).getD []) s (labelFor f s)))
        (d ++ [(f, inner₀)]) =
      d ++ [(f, l.foldl (fun inner s => dictSet inner s (labelFor f s)) inner₀)] := by
  induction l with
  | nil => intro d inner₀ _; simp
  | cons s rest ih =>
    intro d inner₀ hfresh
    simp only [List.foldl_cons]
    have hlook : dlook (d ++ [(f, inner₀)]) f = some inner₀ := by
      rw [dlook_append, hfresh]
      simp
    rw [hlook]
    show rest.foldl _ (dictSet (d ++ [(f, inner₀)]) f
      (dictSet inner₀ s (labelFor f s))) = _
    rw [dictSet_append_last d f inner₀ _ hfresh]
    exact ih d _ hfresh

/-- `add_transitions` on an edges dict whose keys are fresh and whose
successor lists are duplicate-free appends, for each edges entry, the
inner dict described by the labelling rules. -/
theorem add_transitions_fresh (edges : List (String × EdgeTarget)) :
    ∀ (trans : List (String × List (String × TransValue))),
      (edges.map Prod.fst).Nodup →
      (∀ p ∈ edges, dlook trans p.1 = none) →
      (∀ p ∈ edges, ∀ l, p.2 = .succs l → l.Nodup) →
      add_transitions edges trans = trans ++ edges.map (fun p => (p.1,
        match p.2 with
        | .selfLoop a => [(a, TransValue.str "1")]
        | .succs l => l.map (fun s => (s, labelFor p.1 s)))) := by
  induction edges with
  | nil => intro trans _ _ _; simp [add_transitions]
  | cons p rest ih =>
    intro trans hnd hfresh hsuccs
    simp only [List.map_cons, List.nodup_cons] at hnd
    have hp : dlook trans p.1 = none := hfresh p (List.mem_cons_self _ _)
    have hstep : add_transitions_step trans p =
        trans ++ [(p.1,
          match p.2 with
          | .selfLoop a => [(a, TransValue.str "1")]
          | .succs l => l.map (fun s => (s, labelFor p.1 s)))] := by
      rw [add_transitions_step]
      simp only [hp, Option.isSome_none, Bool.false_eq_true, if_false]
      rw [dictSet_fresh trans p.1 [] hp]
      cases he : p.2 with
      | selfLoop a =>
        have hlook : dlook (trans ++ [(p.1, [])]) p.1 = some [] := by
          rw [dlook_append, hp]
          simp
        rw [hlook]
        show dictSet (trans ++ [(p.1, [])]) p.1
          (dictSet (([] : List (String × TransValue))) a (.str "1")) = _
        rw [dictSet_append_last trans p.1 [] _ hp]
        rfl
      | succs l =>
        show List.foldl (fun tr s =>
            dictSet tr p.1 (dictSet ((dlook tr p.1).getD []) s
              (labelFor p.1 s))) (trans ++ [(p.1, [])]) l =
          trans ++ [(p.1, l.map (fun s => (s, labelFor p.1 s)))]
        rw [succs_fold l p.1 trans [] hp]
        rw [foldl_dictSet_fresh_append l (labelFor p.1) []
          (hsuccs p (List.mem_cons_self _ _) l he) (by simp)]
        rfl
    rw [add_transitions, List.foldl_cons, hstep]
    rw [show List.foldl add_transitions_step
        (trans ++ [(p.1, _)]) rest = add_transitions rest _ from rfl]
    rw [ih _ hnd.2 ?_ (fun q hq => hsuccs q (List.mem_cons_of_mem _ hq))]
    · simp
    · intro q hq
      rw [dlook_append, hfresh q (List.mem_cons_of_mem _ hq)]
      have hne : p.1 ≠ q.1 := fun hc =>
        hnd.1 (hc ▸ List.mem_map.mpr ⟨q, hq, rfl⟩)
      simp [hne]

theorem getD_mem (l : List String) (i : ℕ) (h : i < l.length) :
    l.getD i "" ∈ l := by
  rw [List.getD_eq_getElem?_getD, List.getElem?_eq_getElem h]
  exact List.getElem_mem _

theorem getD_inj (l : List String) (hnd : l.Nodup) (i j : ℕ)
    (hi : i < l.length) (hj : j < l.length)
    (h : l.getD i "" = l.getD j "") : i = j := by
  rw [List.getD_eq_getElem?_getD, List.getElem?_eq_getElem hi,
    List.getD_eq_getElem?_getD, List.getElem?_eq_getElem hj] at h
  exact (List.Nodup.getElem_inj_iff hnd).mp h

theorem nodup_pair {α : Type} {a b : α} (h : a ≠ b) : ([a, b]).Nodup := by
  simp [h]

theorem nodup_triple {α : Type} {a b c : α} (h1 : a ≠ b) (h2 : a ≠ c)
    (h3 : b ≠ c) : ([a, b, c]).Nodup := by
  simp [h1, h2, h3]

/-- C6 (amended): for every non-empty list of distinct lowercase state
names, none containing `failure` as a substring, none occurring as a
substring of another state's failure-state name, and (when the done
flag is set) none occurring as a substring of `done`, `auto_create_mc`
builds exactly the edges and symbolic transitions described by the
specification: state `i` points to state `i+1` and its own failure
state; the last state additionally to `done` when the flag is set and
back to `states[0]` when `repeat_info = 1`; absorbing states
self-loop; failure-bound edges are labelled with the destination
absorbing-state name, every other outgoing edge with
`"1 - <from_state>_failure"`, and absorbing self-loops with the
literal `'1'`. -/
theorem auto_create_mc_edges_transitions (states : List String)
    (done_state : Bool) (ri : ℕ)
    (hne : states ≠ [])
    (hnd : states.Nodup)
    (hlow : ∀ s ∈ states, pyLower s = s)
    (hnf : ∀ s ∈ states, pyIn "failure" s = false)
    (hcross : ∀ s ∈ states, ∀ s' ∈ states, s ≠ s' →
      pyIn s (s' ++ "_failure") = false)
    (hdone : done_state = true → ∀ s ∈ states, pyIn s "done" = false) :
    (auto_create_mc states done_state ri).edges =
      (List.range states.length).map (fun i =>
        (states.getD i "", EdgeTarget.succs (
          if i + 1 < states.length then
            [states.getD (i+1) "", states.getD i "" ++ "_failure"]
          else
            [states.getD i "" ++ "_failure"]
              ++ (if done_state then ["done"] else [])
              ++ (if ri = 1 then [states.getD 0 ""] else []))))
      ++ (add_absorbing_states states done_state).map
          (fun a => (a, EdgeTarget.selfLoop a))
    ∧ (auto_create_mc states done_state ri).transitions =
      (List.range states.length).map (fun i =>
        (states.getD i "",
          if i + 1 < states.length then
            [(states.getD (i+1) "",
               TransValue.str ("1 - " ++ states.getD i "" ++ "_failure")),
             (states.getD i "" ++ "_failure",
               TransValue.str (states.getD i "" ++ "_failure"))]
          else
            [(states.getD i "" ++ "_failure",
               TransValue.str (states.getD i "" ++ "_failure"))]
              ++ (if done_state then
                  [("done",
                     TransValue.str ("1 - " ++ states.getD i "" ++ "_failure"))]
                  else [])
              ++ (if ri = 1 then
                  [(states.getD 0 "",
                     TransValue.str ("1 - " ++ states.getD i "" ++ "_failure"))]
                  else [])))
      ++ (add_absorbing_states states done_state).map
          (fun a => (a, [(a, TransValue.str "1")])) := by
  classical
  set n := states.length with hn
  set st : ℕ → String := fun i => states.getD i "" with hst
  set abss := add_absorbing_states states done_state with habss
  have hN : 0 < n := by
    cases states
    · exact absurd rfl hne
    · simp [hn]
  have F0 : ∀ i, i < n → st i ∈ states := fun i hi => getD_mem states i hi
  have F1 : ∀ i j, i < n → j < n → st i = st j → i = j :=
    fun i j hi hj h => getD_inj states hnd i j hi hj h
  have F3 : ("done" ∈ abss) ↔ (done_state = true) := by
    constructor
    · intro hm
      by_contra hc
      have hfalse : done_state = false := by
        cases done_state
        · rfl
        · exact absurd rfl hc
      rw [habss, add_absorbing_states, hfalse] at hm
      simp only [Bool.false_eq_true, if_false, List.append_nil] at hm
      obtain ⟨s, _, hs⟩ := List.mem_map.mp hm
      exact failure_append_ne_done s hs
    · intro hd
      rw [habss, add_absorbing_states, hd]
      simp
  have F5 : ∀ a ∈ abss, a ∉ states := by
    intro a ha hmem
    rw [habss, add_absorbing_states] at ha
    rcases List.mem_append.mp ha with h | h
    · obtain ⟨s, _, hs⟩ := List.mem_map.mp h
      have h1 := hnf a hmem
      rw [← hs] at h1
      rw [pyIn_failure_append] at h1
      exact absurd h1 (by decide)
    · by_cases hd : done_state = true
      · rw [hd] at h
        simp only [if_true, List.mem_singleton] at h
        subst h
        have := hdone hd _ hmem
        rw [pyIn_refl] at this
        exact absurd this (by decide)
      · have hfalse : done_state = false := by
          cases done_state
          · rfl
          · exact absurd rfl hd
        rw [hfalse] at h
        simp at h
  have F2 : ∀ i, i < n → abss.filter (fun a => pyIn (st i) a) =
      [st i ++ "_failure"] := by
    intro i hi
    rw [habss, add_absorbing_states, List.filter_append]
    have hpart1 : (states.map (fun s => s ++ "_failure")).filter
        (fun a => pyIn (st i) a) = [st i ++ "_failure"] := by
      rw [filter_over_map]
      rw [filter_eq_singleton states (st i)
        (fun s' => pyIn (st i) (s' ++ "_failure")) hnd (F0 i hi) ?_]
      · rfl
      · intro b hb
        constructor
        · intro hpb
          by_contra hc
          have h2 := hcross (st i) (F0 i hi) b hb (fun h => hc h.symm)
          change pyIn (st i) (b ++ "_failure") = true at hpb
          rw [h2] at hpb
          exact absurd hpb (by decide)
        · intro hb2
          subst hb2
          exact pyIn_self_append _ _
    have hpart2 : ((if done_state then ["done"] else []) : List String).filter
        (fun a => pyIn (st i) a) = [] := by
      by_cases hd : done_state = true
      · rw [hd]
        simp only [if_true, List.filter_cons, List.filter_nil]
        rw [hdone hd _ (F0 i hi)]
        simp
      · have hfalse : done_state = false := by
          cases done_state
          · rfl
          · exact absurd rfl hd
        rw [hfalse]
        simp
    rw [hpart1, hpart2, List.append_nil]
  -- the automatically built edges dict
  have hrow : ∀ i, i < n → edgesRow states abss ri i =
      (if i + 1 < n then [st (i+1), st i ++ "_failure"]
       else [st i ++ "_failure"]
         ++ (if done_state then ["done"] else [])
         ++ (if ri = 1 then [st 0] else [])) := by
    intro i hi
    rw [edgesRow]
    by_cases hlast : i + 1 < n
    · rw [if_pos (by rw [← hn]; exact hlast), if_pos hlast, F2 i hi]
    · rw [if_neg (by rw [← hn]; exact hlast), if_neg hlast, F2 i hi]
      congr 1
      congr 1
      by_cases hd : done_state = true
      · rw [hd, if_pos (F3.mpr hd)]
        simp
      · have hfalse : done_state = false := by
          cases done_state
          · rfl
          · exact absurd rfl hd
        rw [hfalse, if_neg (fun hc => by
          have := F3.mp hc
          rw [hfalse] at this
          exact absurd this (by decide))]
        simp
  have hedges : (auto_create_mc states done_state ri).edges =
      (List.range n).map (fun i =>
        (st i, EdgeTarget.succs (
          if i + 1 < n then [st (i+1), st i ++ "_failure"]
          else [st i ++ "_failure"]
            ++ (if done_state then ["done"] else [])
            ++ (if ri = 1 then [st 0] else [])))) ++
      abss.map (fun a => (a, EdgeTarget.selfLoop a)) := by
    show add_edges states abss ri = _
    rw [add_edges]
    rw [foldl_range_dictSet n st
      (fun i => EdgeTarget.succs (edgesRow states abss ri i)) F1]
    have hfresh : ∀ a ∈ abss,
        dlook ((List.range n).map
          (fun i => (st i, EdgeTarget.succs (edgesRow states abss ri i)))) a =
          none := by
      intro a ha
      rw [dlook_eq_none_iff, List.map_map]
      intro hc
      obtain ⟨i, hi, hie⟩ := List.mem_map.mp hc
      rw [List.mem_range] at hi
      exact F5 a ha (hie ▸ F0 i hi)
    have habs_nodup : abss.Nodup := by
      rw [habss, add_absorbing_states, List.nodup_append]
      refine ⟨hnd.map append_failure_inj, ?_, ?_⟩
      · by_cases hd : done_state = true
        · rw [hd]; simp
        · have hfalse : done_state = false := by
            cases done_state
            · rfl
            · exact absurd rfl hd
          rw [hfalse]; simp
      · intro x hx1 hx2
        obtain ⟨s, _, hs⟩ := List.mem_map.mp hx1
        by_cases hd : done_state = true
        · rw [hd] at hx2
          simp only [if_true, List.mem_singleton] at hx2
          subst hx2
          exact failure_append_ne_done s hs
        · have hfalse : done_state = false := by
            cases done_state
            · rfl
            · exact absurd rfl hd
          rw [hfalse] at hx2
          simp at hx2
    rw [foldl_dictSet_fresh_append abss EdgeTarget.selfLoop _ habs_nodup hfresh]
    congr 1
    apply List.map_congr_left
    intro i hi
    rw [List.mem_range] at hi
    rw [hrow i hi]
  refine ⟨hedges, ?_⟩
  -- the transitions built from these edges
  show add_transitions (add_edges states abss ri) [] = _
  have hedges' : add_edges states abss ri =
      (List.range n).map (fun i =>
        (st i, EdgeTarget.succs (
          if i + 1 < n then [st (i+1), st i ++ "_failure"]
          else [st i ++ "_failure"]
            ++ (if done_state then ["done"] else [])
            ++ (if ri = 1 then [st 0] else [])))) ++
      abss.map (fun a => (a, EdgeTarget.selfLoop a)) := hedges
  rw [hedges']
  have hdonefalse : ¬(done_state = true) → done_state = false := by
    intro hd
    cases done_state
    · rfl
    · exact absurd rfl hd
  have habs_nodup : abss.Nodup := by
    rw [habss, add_absorbing_states, List.nodup_append]
    refine ⟨hnd.map append_failure_inj, ?_, ?_⟩
    · by_cases hd : done_state = true
      · rw [hd]; simp
      · rw [hdonefalse hd]; simp
    · intro x hx1 hx2
      obtain ⟨s, _, hs⟩ := List.mem_map.mp hx1
      by_cases hd : done_state = true
      · rw [hd] at hx2
        simp only [if_true, List.mem_singleton] at hx2
        subst hx2
        exact failure_append_ne_done s hs
      · rw [hdonefalse hd] at hx2
        simp at hx2
  have hfailne : ∀ i j, i < n → j < n → st j ≠ st i ++ "_failure" := by
    intro i j hi hj hc
    have h1 := hnf (st j) (F0 j hj)
    rw [hc, pyIn_failure_append] at h1
    exact absurd h1 (by decide)
  have hdonene : done_state = true → ∀ j, j < n → st j ≠ "done" := by
    intro hd j hj hc
    have := hdone hd (st j) (F0 j hj)
    rw [hc, pyIn_refl] at this
    exact absurd this (by decide)
  have hlabs : ∀ i, i < n → ∀ s', s' ∈ states →
      labelFor (st i) s' = .str ("1 - " ++ st i ++ "_failure") := by
    intro i hi s' hs'
    rw [labelFor, if_neg (by rw [hnf s' hs']; simp), hlow (st i) (F0 i hi)]
  have hlabf : ∀ i, i < n →
      labelFor (st i) (st i ++ "_failure") = .str (st i ++ "_failure") := by
    intro i hi
    rw [labelFor, if_pos (pyIn_failure_append (st i))]
    rw [pyLower_append, hlow (st i) (F0 i hi),
      show pyLower "_failure" = "_failure" by decide]
  have hlabd : ∀ i, i < n →
      labelFor (st i) "done" = .str ("1 - " ++ st i ++ "_failure") := by
    intro i hi
    rw [labelFor, if_neg (by decide), hlow (st i) (F0 i hi)]
  rw [add_transitions_fresh _ []
    (by
      simp only [List.map_append, List.map_map, List.nodup_append]
      refine ⟨?_, ?_, ?_⟩
      · refine List.Nodup.map_on ?_ (List.nodup_range n)
        intro x hx y hy hxy
        rw [List.mem_range] at hx hy
        exact F1 x y hx hy hxy
      · have hcomp : (Prod.fst ∘ fun a : String => (a, EdgeTarget.selfLoop a)) =
            fun a : String => a := rfl
        rw [hcomp, List.map_id']
        exact habs_nodup
      · intro x hx1 hx2
        obtain ⟨i, hi, hie⟩ := List.mem_map.mp hx1
        rw [List.mem_range] at hi
        have hxs : x ∈ states := hie ▸ F0 i hi
        have hxa : x ∈ abss := by simpa [Function.comp] using hx2
        exact F5 x hxa hxs)
    (by intro p _; simp)
    (by
      intro p hp l heq
      rcases List.mem_append.mp hp with hmem | hmem
      · obtain ⟨i, hi, hie⟩ := List.mem_map.mp hmem
        rw [List.mem_range] at hi
        have h2 : EdgeTarget.succs
            (if i + 1 < n then [st (i+1), st i ++ "_failure"]
             else [st i ++ "_failure"]
               ++ (if done_state then ["done"] else [])
               ++ (if ri = 1 then [st 0] else [])) = EdgeTarget.succs l := by
          rw [← heq, ← hie]
        injection h2 with hl
        rw [← hl]
        by_cases hlast : i + 1 < n
        · rw [if_pos hlast]
          exact nodup_pair (hfailne i (i+1) hi hlast)
        · rw [if_neg hlast]
          by_cases hd : done_state = true
          · by_cases hr : ri = 1
            · rw [if_pos hd, if_pos hr]
              simp only [List.singleton_append, List.cons_append,
                List.nil_append]
              exact nodup_triple (failure_append_ne_done (st i))
                (Ne.symm (hfailne i 0 hi hN))
                (Ne.symm (hdonene hd 0 hN))
            · rw [if_pos hd, if_neg hr]
              simp only [List.append_nil, List.singleton_append]
              exact nodup_pair (failure_append_ne_done (st i))
          · by_cases hr : ri = 1
            · rw [if_neg hd, if_pos hr]
              simp only [List.append_nil, List.nil_append,
                List.singleton_append]
              exact nodup_pair (Ne.symm (hfailne i 0 hi hN))
            · rw [if_neg hd, if_neg hr]
              simp
      · obtain ⟨a, _, hae⟩ := List.mem_map.mp hmem
        have h2 : EdgeTarget.selfLoop a = EdgeTarget.succs l := by
          rw [← heq, ← hae]
        simp at h2)]
  rw [List.nil_append, List.map_append, List.map_map, List.map_map]
  congr 1
  · apply List.map_congr_left
    intro i hi
    rw [List.mem_range] at hi
    show (st i, (if i + 1 < n then [st (i+1), st i ++ "_failure"]
      else [st i ++ "_failure"]
        ++ (if done_state then ["done"] else [])
        ++ (if ri = 1 then [st 0] else [])).map
          (fun s => (s, labelFor (st i) s))) = _
    refine congrArg (Prod.mk (st i)) ?_
    by_cases hlast : i + 1 < n
    · rw [if_pos hlast, if_pos hlast]
      simp only [List.map_cons, List.map_nil]
      rw [hlabs i hi (st (i+1)) (F0 _ hlast), hlabf i hi]
    · rw [if_neg hlast, if_neg hlast]
      rw [List.map_append, List.map_append]
      simp only [List.map_cons, List.map_nil]
      rw [hlabf i hi]
      congr 1
      congr 1
      · by_cases hd : done_state = true
        · rw [if_pos hd, if_pos hd]
          simp only [List.map_cons, List.map_nil]
          rw [hlabd i hi]
        · rw [if_neg hd, if_neg hd]
          simp
      · by_cases hr : ri = 1
        · rw [if_pos hr, if_pos hr]
          simp only [List.map_cons, List.map_nil]
          rw [hlabs i hi (st 0) (F0 0 hN)]
        · rw [if_neg hr, if_neg hr]
          simp

theorem auto_create_mc_edges_transitions_witness :
    (auto_create_mc ["move", "pick"] true 1).edges =
      [("move", .succs ["pick", "move_failure"]),
       ("pick", .succs ["pick_failure", "done", "move"]),
       ("move_failure", .selfLoop "move_failure"),
       ("pick_failure", .selfLoop "pick_failure"),
       ("done", .selfLoop "done")] ∧
    (auto_create_mc ["move", "pick"] true 1).transitions =
      [("move", [("pick", .str "1 - move_failure"),
                 ("move_failure", .str "move_failure")]),
       ("pick", [("pick_failure", .str "pick_failure"),
                 ("done", .str "1 - pick_failure"),
                 ("move", .str "1 - pick_failure")]),
       ("move_failure", [("move_failure", .str "1")]),
       ("pick_failure", [("pick_failure", .str "1")]),
       ("done", [("done", .str "1")])] := by
  have h := auto_create_mc_edges_transitions ["move", "pick"] true 1
    (by decide) (by decide) (by decide) (by decide) (by decide) (by decide)
  constructor
  · rw [h.1]
    decide
  · rw [h.2]
    decide

/-! ### Absorbing-chain solver (`solve_mc`, dra_solver.py lines 75-131)

`create_mc_transition_matrix` builds the full matrix P over
`states ++ absorbing_states` by writing each numeric weight at
`[index(from)][index(to)]` (`.index` returns the first occurrence, so
with pairwise distinct names the cell of a pair of names is exactly
the dict entry, other cells staying `0`; the `state_list.extend`
mutations are harmless for the produced matrices under distinctness).
`create_canonical_form` deletes the absorbing rows/columns, which for
the combined order `states ++ absorbing_states` is exactly the leading
`Q` block and the trailing `R` block.  The LU solves compute
`B = (I-Q)⁻¹ R` and `t = (I-Q)⁻¹ 𝟙`; the inverse is modelled exactly
over `ℚ` through the adjugate, and a singular `I-Q` (a fatal numerical
error in SciPy) is `none`. -/

/-- NumPy converts numeric strings on float-array assignment; among the
labels this model ever stores, the only float-parseable string is the
literal `"1"`. -/
def toNum : TransValue → Option ℚ
  | .num q => some q
  | .str s => if s = "1" then some 1 else none

def toNumRow : List (String × TransValue) → Option (List (String × ℚ))
  | [] => some []
  | (k, v) :: rest =>
    match toNum v, toNumRow rest with
    | some q, some r => some ((k, q) :: r)
    | _, _ => none

def toNumTrans : List (String × List (String × TransValue)) →
    Option (List (String × List (String × ℚ)))
  | [] => some []
  | (k, row) :: rest =>
    match toNumRow row, toNumTrans rest with
    | some r, some t => some ((k, r) :: t)
    | _, _ => none

/-- The full transition matrix over `states ++ absorbing_states`. -/
def p_matrix (states abss : List String)
    (t : List (String × List (String × ℚ))) :
    Matrix (Fin (states.length + abss.length))
      (Fin (states.length + abss.length)) ℚ :=
  fun i j =>
    (lookup2 t ((states ++ abss).getD i.val "")
      ((states ++ abss).getD j.val "")).getD 0

/-- The transient-to-transient block Q of the canonical form. -/
def q_matrix (states abss : List String)
    (t : List (String × List (String × ℚ))) :
    Matrix (Fin states.length) (Fin states.length) ℚ :=
  fun i j =>
    p_matrix states abss t (Fin.castAdd abss.length i) (Fin.castAdd abss.length j)

/-- The transient-to-absorbing block R of the canonical form. -/
def r_matrix (states abss : List String)
    (t : List (String × List (String × ℚ))) :
    Matrix (Fin states.length) (Fin abss.length) ℚ :=
  fun i j =>
    p_matrix states abss t (Fin.castAdd abss.length i) (Fin.natAdd states.length j)

/-- Exact inverse used to model the LU solve against `(I - Q)`. -/
def matInvQ {m : ℕ} (A : Matrix (Fin m) (Fin m) ℚ) :
    Matrix (Fin m) (Fin m) ℚ :=
  A.det⁻¹ • A.adjugate

theorem matInvQ_mul {m : ℕ} (A : Matrix (Fin m) (Fin m) ℚ)
    (h : A.det ≠ 0) : matInvQ A * A = 1 := by
  rw [matInvQ, Matrix.smul_mul, Matrix.adjugate_mul, smul_smul,
    inv_mul_cancel₀ h, one_smul]

/-- `solve_mc` (lines 75-95): absorption probabilities
`B = (I-Q)⁻¹ R` and expected steps to absorption `t = (I-Q)⁻¹ 𝟙`. -/
def solve_mc (states abss : List String)
    (trans : List (String × List (String × TransValue))) :
    Option (Matrix (Fin states.length) (Fin abss.length) ℚ ×
      (Fin states.length → ℚ)) :=
  match toNumTrans trans with
  | none => none
  | some t =>
    let nm : Matrix (Fin states.length) (Fin states.length) ℚ :=
      1 - q_matrix states abss t
    if nm.det = 0 then none
    else some (matInvQ nm * r_matrix states abss t,
      (matInvQ nm).mulVec (fun _ => 1))

/-- Summing the looked-up value of every name of a duplicate-free name
list recovers the sum of a dict whose keys all occur in the list. -/
theorem sum_dlook_over_list (row : List (String × ℚ)) :
    ∀ sl : List String, sl.Nodup → (row.map Prod.fst).Nodup →
      (∀ q ∈ row, q.1 ∈ sl) →
      (sl.map (fun x => (dlook row x).getD 0)).sum = (row.map Prod.snd).sum := by
  induction row with
  | nil =>
    intro sl _ _ _
    simp
  | cons p rest ih =>
    intro sl hslnd hrownd hsub
    obtain ⟨l₁, l₂, hsl⟩ := List.append_of_mem (hsub p (List.mem_cons_self _ _))
    subst hsl
    simp only [List.map_cons, List.nodup_cons] at hrownd
    have hk1 : p.1 ∉ l₁ := by
      intro hc
      rw [List.nodup_append] at hslnd
      exact hslnd.2.2 hc (List.mem_cons_self _ _)
    have hk2 : p.1 ∉ l₂ := by
      rw [List.nodup_append] at hslnd
      have := hslnd.2.1
      rw [List.nodup_cons] at this
      exact this.1
    have hgk : (dlook (p :: rest) p.1).getD 0 = p.2 := by simp
    have hgne : ∀ x, x ≠ p.1 →
        (dlook (p :: rest) x).getD 0 = (dlook rest x).getD 0 := by
      intro x hx
      rw [dlook_cons, if_neg (fun hc => hx hc.symm)]
    have hg'k : (dlook rest p.1).getD 0 = 0 := by
      rw [(dlook_eq_none_iff rest p.1).mpr hrownd.1]
      rfl
    have hsub' : ∀ q ∈ rest, q.1 ∈ l₁ ++ p.1 :: l₂ :=
      fun q hq => hsub q (List.mem_cons_of_mem _ hq)
    have ihall := ih (l₁ ++ p.1 :: l₂) hslnd hrownd.2 hsub'
    simp only [List.map_append, List.sum_append, List.map_cons,
      List.sum_cons] at ihall ⊢
    rw [hgk, hg'k] at *
    have hl₁ : (l₁.map (fun x => (dlook (p :: rest) x).getD 0)).sum =
        (l₁.map (fun x => (dlook rest x).getD 0)).sum := by
      congr 1
      exact List.map_congr_left
        (fun x hx => hgne x (fun hc => hk1 (hc ▸ hx)))
    have hl₂ : (l₂.map (fun x => (dlook (p :: rest) x).getD 0)).sum =
        (l₂.map (fun x => (dlook rest x).getD 0)).sum := by
      congr 1
      exact List.map_congr_left
        (fun x hx => hgne x (fun hc => hk2 (hc ▸ hx)))
    rw [hl₁, hl₂]
    rw [zero_add] at ihall
    rw [← ihall]
    ring

theorem list_sum_getD (l : List String) (g : String → ℚ) :
    ∑ j ∈ Finset.range l.length, g (l.getD j "") = (l.map g).sum := by
  induction l with
  | nil => simp
  | cons x xs ih =>
    rw [List.length_cons, Finset.sum_range_succ', List.map_cons, List.sum_cons]
    simp only [List.getD_cons_succ, List.getD_cons_zero]
    rw [ih]
    ring

/-- The sum of a row of the full transition matrix is the sum of the
corresponding transition-dict row. -/
theorem p_row_sum (states abss : List String)
    (t : List (String × List (String × ℚ)))
    (hnd : (states ++ abss).Nodup)
    (f : String) (row : List (String × ℚ))
    (hf : dlook t f = some row)
    (hrownd : (row.map Prod.fst).Nodup)
    (hsub : ∀ q ∈ row, q.1 ∈ states ++ abss)
    (i : Fin (states.length + abss.length))
    (hi : (states ++ abss).getD i.val "" = f) :
    ∑ j, p_matrix states abss t i j = (row.map Prod.snd).sum := by
  have hsummand : ∀ j : Fin (states.length + abss.length),
      p_matrix states abss t i j =
        (dlook row ((states ++ abss).getD j.val "")).getD 0 := by
    intro j
    rw [p_matrix, hi, lookup2, hf, Option.some_bind]
  rw [Finset.sum_congr rfl (fun j _ => hsummand j)]
  rw [Fin.sum_univ_eq_sum_range
    (fun j => (dlook row ((states ++ abss).getD j "")).getD 0)]
  rw [← List.length_append states abss]
  rw [list_sum_getD (states ++ abss) (fun x => (dlook row x).getD 0)]
  exact sum_dlook_over_list row (states ++ abss) hnd hrownd hsub

/-- C2: for every Markov chain with pairwise distinct state names whose
transitions are fully numeric, whose every transient state has an
outgoing row of non-negative weights summing to exactly 1 over
destinations within the chain, and whose `I − Q` is invertible, the
absorption-probability matrix `B` returned by `solve_mc` has every row
summing to exactly 1. -/
theorem solve_mc_rows_sum_one (states abss : List String)
    (trans : List (String × List (String × TransValue)))
    (t : List (String × List (String × ℚ)))
    (hnum : toNumTrans trans = some t)
    (hnd : (states ++ abss).Nodup)
    (hinnernd : ∀ p ∈ t, (p.2.map Prod.fst).Nodup)
    (hdest : ∀ p ∈ t, ∀ q ∈ p.2, q.1 ∈ states ++ abss)
    (hrowsum : ∀ s ∈ states, (dlook t s).isSome ∧
      (((dlook t s).getD []).map Prod.snd).sum = 1 ∧
      ∀ v ∈ ((dlook t s).getD []).map Prod.snd, 0 ≤ v)
    (hdet : (1 - q_matrix states abss t).det ≠ 0) :
    ∃ B tvec, solve_mc states abss trans = some (B, tvec) ∧
      ∀ i : Fin states.length, ∑ j, B i j = 1 := by
  classical
  set nm : Matrix (Fin states.length) (Fin states.length) ℚ :=
    1 - q_matrix states abss t with hnm
  have hB : solve_mc states abss trans =
      some (matInvQ nm * r_matrix states abss t,
        (matInvQ nm).mulVec (fun _ => 1)) := by
    rw [solve_mc, hnum]
    simp only [← hnm]
    rw [if_neg hdet]
  refine ⟨_, _, hB, ?_⟩
  have hfull : ∀ l : Fin states.length,
      ∑ jj, p_matrix states abss t (Fin.castAdd abss.length l) jj = 1 := by
    intro l
    have hl : l.val < states.length := l.isLt
    have hglookup : (states ++ abss).getD (Fin.castAdd abss.length l).val "" =
        states.getD l.val "" := by
      show (states ++ abss).getD l.val "" = states.getD l.val ""
      rw [List.getD_eq_getElem?_getD, List.getD_eq_getElem?_getD,
        List.getElem?_append_left hl]
    have hmem : states.getD l.val "" ∈ states := getD_mem states l.val hl
    obtain ⟨hsome, hsum, _⟩ := hrowsum _ hmem
    obtain ⟨row, hrow⟩ := Option.isSome_iff_exists.mp hsome
    have hmem2 : (states.getD l.val "", row) ∈ t := mem_of_dlook_eq_some _ _ _ hrow
    rw [p_row_sum states abss t hnd _ row hrow
      (hinnernd _ hmem2) (hdest _ hmem2) _ hglookup]
    rw [hrow] at hsum
    exact hsum
  have hrowfact : ∀ l : Fin states.length,
      ∑ j, r_matrix states abss t l j = ∑ m, nm l m := by
    intro l
    have hsplit := Fin.sum_univ_add
      (fun jj => p_matrix states abss t (Fin.castAdd abss.length l) jj)
    rw [hfull l] at hsplit
    have hq : ∀ m, p_matrix states abss t (Fin.castAdd abss.length l)
        (Fin.castAdd abss.length m) = q_matrix states abss t l m :=
      fun m => rfl
    have hr : ∀ j, p_matrix states abss t (Fin.castAdd abss.length l)
        (Fin.natAdd states.length j) = r_matrix states abss t l j :=
      fun j => rfl
    rw [Finset.sum_congr rfl (fun m _ => hq m),
      Finset.sum_congr rfl (fun j _ => hr j)] at hsplit
    have hone : ∑ m, nm l m = 1 - ∑ m, q_matrix states abss t l m := by
      rw [hnm]
      simp only [Matrix.sub_apply, Finset.sum_sub_distrib]
      congr 1
      simp [Matrix.one_apply]
    rw [hone]
    linarith
  intro i
  calc ∑ j, (matInvQ nm * r_matrix states abss t) i j
      = ∑ j, ∑ l, matInvQ nm i l * r_matrix states abss t l j := by
        simp [Matrix.mul_apply]
    _ = ∑ l, ∑ j, matInvQ nm i l * r_matrix states abss t l j :=
        Finset.sum_comm
    _ = ∑ l, matInvQ nm i l * ∑ j, r_matrix states abss t l j := by
        refine Finset.sum_congr rfl (fun l _ => ?_)
        rw [Finset.mul_sum]
    _ = ∑ l, matInvQ nm i l * ∑ m, nm l m := by
        refine Finset.sum_congr rfl (fun l _ => ?_)
        rw [hrowfact l]
    _ = ∑ l, ∑ m, matInvQ nm i l * nm l m := by
        refine Finset.sum_congr rfl (fun l _ => ?_)
        rw [Finset.mul_sum]
    _ = ∑ m, ∑ l, matInvQ nm i l * nm l m := Finset.sum_comm
    _ = ∑ m, (matInvQ nm * nm) i m := by
        simp [Matrix.mul_apply]
    _ = ∑ m, (1 : Matrix (Fin states.length) (Fin states.length) ℚ) i m := by
        rw [matInvQ_mul nm hdet]
    _ = 1 := by
        simp [Matrix.one_apply]

theorem solve_mc_rows_sum_one_witness :
    ∃ (B : Matrix (Fin (["s"] : List String).length)
        (Fin (["s_failure"] : List String).length) ℚ)
      (tvec : Fin (["s"] : List String).length → ℚ),
      solve_mc ["s"] ["s_failure"]
        [("s", [("s_failure", .num 1)]),
         ("s_failure", [("s_failure", .str "1")])] = some (B, tvec) ∧
      ∀ i, ∑ j, B i j = 1 := by
  refine solve_mc_rows_sum_one ["s"] ["s_failure"] _
    [("s", [("s_failure", 1)]), ("s_failure", [("s_failure", 1)])]
    rfl (by decide) (by decide) (by decide) ?_ ?_
  · intro s hs
    simp only [List.mem_singleton] at hs
    subst hs
    refine ⟨by decide, ?_, ?_⟩
    · simp +decide [dlook]
    · intro v hv
      simp +decide [dlook] at hv
      rw [hv]
      norm_num
  · rw [Matrix.det_fin_one]
    norm_num +decide [q_matrix, p_matrix, lookup2, dlook, Matrix.sub_apply,
      Matrix.one_apply]

/-! ### Hybrid solver (`hybrid_solver`, dra_solver.py lines 133-167) -/

/-- A fault tree as handed to the hybrid solver: the object fields and
the graph-derived structures `solve_ft` consumes. -/
structure FTInput where
  top_event : String
  succ : List (String × List String)
  gates : List (String × String)
  basic_events : List (String × ℚ)

/-- The top-event failure probability `solve_ft` leaves on the object
(`none` when the fixpoint recursion would not terminate). -/
def solve_ft_result (ft : FTInput) : Option GateResult :=
  solve_ft_top ft.top_event ft.succ ft.gates ft.basic_events

/-- `ft_result_dict`: top-event name to stored probability, in
iteration order.  The Python sentinel `False` left by a failed gate
evaluation is numerically `0` everywhere it is subsequently used, which
`grNum` captures. -/
def ft_results (fts : List FTInput) : Option (List (String × ℚ)) :=
  fts.foldl (fun acc ft =>
    match acc, solve_ft_result ft with
    | some d, some g => some (dictSet d ft.top_event (grNum g))
    | _, _ => none) (some [])

/-- The per-transition substitution of the hybrid solver (lines
148-164): a symbolic weight matching a resolved top-event name becomes
that tree's failure probability; the literal `'1'` is skipped
(left in place); a weight equal to `"1 - " ++ top_event` for some
resolved top event becomes `1 − p`, further multiplied by the
`repeat_dict` factor of the destination state when present; anything
else is silently left unchanged. -/
def resolveVal (ftr : List (String × ℚ)) (rep : List (String × ℚ))
    (to_state : String) (v : TransValue) : TransValue :=
  match v with
  | .num q => .num q
  | .str s =>
    match dlook ftr s with
    | some p => .num p
    | none =>
      if s = "1" then .str "1"
      else
        match ftr.find? (fun q => "1 - " ++ q.1 = s) with
        | some q =>
          match dlook rep to_state with
          | some fac => .num ((1 - q.2) * fac)
          | none => .num (1 - q.2)
        | none => .str s

/-- The transition resolution loop: every stored weight is replaced in
place by its resolved value (each `(from, to)` pair is visited exactly
once, and `add_single_transition` on an existing key is an in-place
update). -/
def resolve_transitions (ftr rep : List (String × ℚ))
    (trans : List (String × List (String × TransValue))) :
    List (String × List (String × TransValue)) :=
  trans.map (fun p => (p.1, p.2.map (fun q => (q.1, resolveVal ftr rep q.1 q.2))))

/-- `hybrid_solver` (lines 133-167): solve all fault trees, resolve the
symbolic transitions, then solve the Markov chain. -/
def hybrid_solver (fts : List FTInput) (mc : MCChain)
    (rep : List (String × ℚ)) :
    Option (Matrix (Fin mc.states.length) (Fin mc.absorbing_states.length) ℚ ×
      (Fin mc.states.length → ℚ)) :=
  match ft_results fts with
  | none => none
  | some ftr =>
    solve_mc mc.states mc.absorbing_states
      (resolve_transitions ftr rep mc.transitions)

/-- `HybridReliabilityModel.compute_system_reliability`
(dra_reliability_models.py lines 66-71), first result only: the sum of
`absorption_prob[1, 0:6]` — row index 1 of B (an `IndexError`, modelled
`none`, unless there are at least two transient states) and the first
six columns. -/
def compute_system_reliability (fts : List FTInput) (mc : MCChain)
    (rep : List (String × ℚ)) : Option ℚ :=
  match hybrid_solver fts mc rep with
  | none => none
  | some (b, _) =>
    if h : 1 < mc.states.length then
      some (∑ j ∈ Finset.univ.filter
        (fun j : Fin mc.absorbing_states.length => j.val < 6), b ⟨1, h⟩ j)
    else none

/-- `HybridReliabilityModel.compute_system_reliability`
(src/reliability_models.py lines 123-135), first result only: the sum
of `absorption_prob[0, 0:num_cols]` with `num_cols = B.shape[1] - 1`,
i.e. row 0 of B without its last column. -/
def compute_system_reliability_v2 (fts : List FTInput) (mc : MCChain)
    (rep : List (String × ℚ)) : Option ℚ :=
  match hybrid_solver fts mc rep with
  | none => none
  | some (b, _) =>
    if h : 0 < mc.states.length then
      some (∑ j ∈ Finset.univ.filter
        (fun j : Fin mc.absorbing_states.length =>
          j.val < mc.absorbing_states.length - 1), b ⟨0, h⟩ j)
    else none

/-- Modelled from the spec (§4.4 step 4): the system reliability the
specification and claim C1 describe — the sum, over the row of the
initial transient state (row 0), of the absorption probabilities into
all non-failure absorbing columns. -/
def claimed_system_reliability (abss : List String) {n : ℕ}
    (b : Matrix (Fin n) (Fin abss.length) ℚ) (h : 0 < n) : ℚ :=
  ∑ j ∈ Finset.univ.filter
    (fun j : Fin abss.length => pyIn "failure" (abss.getD j.val "") = false),
    b ⟨0, h⟩ j

/-! ### End-to-end scenarios of the specification

Scenario A: a 2-skill chain `move`, `pick` with a `done` state and no
repeat; the fault trees (one OR gate over one basic event each, as
`auto_create_ft` builds them) give `move_failure = 0.1` and
`pick_failure = 0.2`.  Scenario B is the same with `repeat_info = 1`
and `repeat_dict = {done: 0.5}`. -/

def ft_move : FTInput :=
  { top_event := "move_failure"
    succ := [("move_failure", ["c_m"])]
    gates := [("move_failure", "OR")]
    basic_events := [("c_m", 1/10)] }

def ft_pick : FTInput :=
  { top_event := "pick_failure"
    succ := [("pick_failure", ["c_p"])]
    gates := [("pick_failure", "OR")]
    basic_events := [("c_p", 1/5)] }

def mcA : MCChain := auto_create_mc ["move", "pick"] true 0

def mcB : MCChain := auto_create_mc ["move", "pick"] true 1

theorem scenario_ft_results :
    ft_results [ft_move, ft_pick] =
      some [("move_failure", 1/10), ("pick_failure", 1/5)] := by
  norm_num +decide [ft_results, solve_ft_result, solve_ft_top, solve_dfs,
    solve_ft_gate, orFold, andFold, childValue, dlook, grNum, isReady,
    dictSet, dictDel, ft_move, ft_pick]

theorem mcA_transitions :
    mcA.transitions =
      [("move", [("pick", .str "1 - move_failure"),
                 ("move_failure", .str "move_failure")]),
       ("pick", [("pick_failure", .str "pick_failure"),
                 ("done", .str "1 - pick_failure")]),
       ("move_failure", [("move_failure", .str "1")]),
       ("pick_failure", [("pick_failure", .str "1")]),
       ("done", [("done", .str "1")])] := by
  decide

theorem scenarioA_resolved :
    resolve_transitions [("move_failure", 1/10), ("pick_failure", 1/5)] []
      mcA.transitions =
      [("move", [("pick", .num (9/10)), ("move_failure", .num (1/10))]),
       ("pick", [("pick_failure", .num (1/5)), ("done", .num (4/5))]),
       ("move_failure", [("move_failure", .str "1")]),
       ("pick_failure", [("pick_failure", .str "1")]),
       ("done", [("done", .str "1")])] := by
  rw [mcA_transitions]
  norm_num +decide [resolve_transitions, resolveVal, dlook, List.find?]

/-- The fully numeric scenario-A transition dict. -/
def tA : List (String × List (String × ℚ)) :=
  [("move", [("pick", 9/10), ("move_failure", 1/10)]),
   ("pick", [("pick_failure", 1/5), ("done", 4/5)]),
   ("move_failure", [("move_failure", 1)]),
   ("pick_failure", [("pick_failure", 1)]),
   ("done", [("done", 1)])]

theorem scenarioA_toNum :
    toNumTrans (resolve_transitions
      [("move_failure", 1/10), ("pick_failure", 1/5)] [] mcA.transitions) =
      some tA := by
  rw [scenarioA_resolved]
  rfl

theorem scenarioA_q :
    q_matrix ["move", "pick"] ["move_failure", "pick_failure", "done"] tA =
      !![0, 9/10; 0, 0] := by
  funext i j
  fin_cases i <;> fin_cases j <;> rfl

theorem scenarioA_r :
    r_matrix ["move", "pick"] ["move_failure", "pick_failure", "done"] tA =
      !![1/10, 0, 0; 0, 1/5, 4/5] := by
  funext i j
  fin_cases i <;> fin_cases j <;> rfl

theorem scenarioA_det :
    (1 - q_matrix ["move", "pick"] ["move_failure", "pick_failure", "done"]
      tA).det = 1 := by
  rw [scenarioA_q, Matrix.det_fin_two]
  simp [Matrix.sub_apply, Matrix.one_apply]

set_option synthInstance.maxHeartbeats 1000000 in
theorem scenarioA_B :
    matInvQ (1 - q_matrix ["move", "pick"]
        ["move_failure", "pick_failure", "done"] tA) *
      r_matrix ["move", "pick"] ["move_failure", "pick_failure", "done"] tA =
      !![1/10, 9/50, 18/25; 0, 1/5, 4/5] := by
  rw [matInvQ, scenarioA_det, scenarioA_q, scenarioA_r]
  funext i j
  fin_cases i <;> fin_cases j <;>
    simp [Matrix.adjugate_fin_two, Matrix.mul_apply, Fin.sum_univ_two,
      Matrix.smul_apply, Matrix.sub_apply, Matrix.one_apply] <;>
    norm_num

theorem scenarioA_hybrid :
    hybrid_solver [ft_move, ft_pick] mcA [] =
      some (!![1/10, 9/50, 18/25; 0, 1/5, 4/5],
        (matInvQ (1 - q_matrix ["move", "pick"]
          ["move_failure", "pick_failure", "done"] tA)).mulVec (fun _ => 1)) := by
  have h1 := scenario_ft_results
  simp only [hybrid_solver, h1]
  show solve_mc ["move", "pick"] ["move_failure", "pick_failure", "done"]
    (resolve_transitions [("move_failure", 1/10), ("pick_failure", 1/5)] []
      mcA.transitions) = _
  simp only [solve_mc, scenarioA_toNum]
  rw [if_neg (by rw [scenarioA_det]; norm_num)]
  rw [scenarioA_B]
  rfl

/-- C1: the claim says `compute_system_reliability` returns the sum,
over the row of the initial transient state, of the absorption
probabilities into the non-failure columns (0.72 in scenario A).  The
code instead hardcodes `absorption_prob[1, 0:6]` — row index 1 and up
to six columns, i.e. the whole second row — which sums to 1 in
scenario A; the `src/reliability_models.py` variant takes row 0 but
drops only the last column, keeping exactly the failure columns, and
returns 0.28.  The value the claim (and the spec, and the function's
own name) describes is 0.72, which neither implementation returns. -/
theorem compute_system_reliability_scenarioA_bug :
    compute_system_reliability [ft_move, ft_pick] mcA [] = some 1
    ∧ compute_system_reliability_v2 [ft_move, ft_pick] mcA [] = some (7/25)
    ∧ (∃ (B : Matrix (Fin mcA.states.length)
          (Fin mcA.absorbing_states.length) ℚ)
        (tvec : Fin mcA.states.length → ℚ)
        (h0 : 0 < mcA.states.length),
        hybrid_solver [ft_move, ft_pick] mcA [] = some (B, tvec) ∧
        claimed_system_reliability mcA.absorbing_states B h0 = 18/25)
    ∧ ((1 : ℚ) ≠ 18/25) ∧ ((7/25 : ℚ) ≠ 18/25) := by
  have hh := scenarioA_hybrid
  refine ⟨?_, ?_, ?_, by norm_num, by norm_num⟩
  · simp only [compute_system_reliability, hh]
    rw [dif_pos (by decide : 1 < mcA.states.length)]
    congr 1
    show ∑ j ∈ Finset.univ.filter (fun j : Fin 3 => j.val < 6),
      (!![1/10, 9/50, 18/25; 0, 1/5, 4/5] : Matrix (Fin 2) (Fin 3) ℚ)
        ⟨1, by norm_num⟩ j = 1
    rw [Finset.sum_filter, Fin.sum_univ_three]
    norm_num
  · simp only [compute_system_reliability_v2, hh]
    rw [dif_pos (by decide : 0 < mcA.states.length)]
    congr 1
    show ∑ j ∈ Finset.univ.filter (fun j : Fin 3 => j.val < 3 - 1),
      (!![1/10, 9/50, 18/25; 0, 1/5, 4/5] : Matrix (Fin 2) (Fin 3) ℚ)
        ⟨0, by norm_num⟩ j = 7/25
    rw [Finset.sum_filter, Fin.sum_univ_three]
    norm_num
  · refine ⟨_, _, by decide, hh, ?_⟩
    show ∑ j ∈ Finset.univ.filter (fun j : Fin 3 =>
        pyIn "failure" ((["move_failure", "pick_failure", "done"] :
          List String).getD j.val "") = false),
      (!![1/10, 9/50, 18/25; 0, 1/5, 4/5] : Matrix (Fin 2) (Fin 3) ℚ)
        ⟨0, by norm_num⟩ j = 18/25
    rw [Finset.sum_filter, Fin.sum_univ_three]
    norm_num +decide

/-! ### Error handling of `solve_ft_gate` inside the hybrid solve (C7) -/

theorem andFold_err_of_missing (edges : List String)
    (bes : List (String × ℚ)) (rm : List (String × GateResult)) :
    ∀ acc : ℚ, (∃ e ∈ edges, childValue e bes rm = none) →
      andFold edges bes rm acc = .err := by
  induction edges with
  | nil =>
    intro acc h
    obtain ⟨e, he, _⟩ := h
    exact absurd he (List.not_mem_nil e)
  | cons a as ih =>
    intro acc h
    obtain ⟨e, he, hce⟩ := h
    rcases List.mem_cons.mp he with rfl | hmem
    · simp [andFold, hce]
    · cases hcv : childValue a bes rm with
      | none => simp [andFold, hcv]
      | some g =>
        simp only [andFold, hcv]
        exact ih _ ⟨e, hmem, hce⟩

theorem orFold_err_of_missing (edges : List String)
    (bes : List (String × ℚ)) (rm : List (String × GateResult)) :
    ∀ acc : ℚ, (∃ e ∈ edges, childValue e bes rm = none) →
      orFold edges bes rm acc = .err := by
  induction edges with
  | nil =>
    intro acc h
    obtain ⟨e, he, _⟩ := h
    exact absurd he (List.not_mem_nil e)
  | cons a as ih =>
    intro acc h
    obtain ⟨e, he, hce⟩ := h
    rcases List.mem_cons.mp he with rfl | hmem
    · simp [orFold, hce]
    · cases hcv : childValue a bes rm with
      | none => simp [orFold, hcv]
      | some g =>
        simp only [orFold, hcv]
        exact ih _ ⟨e, hmem, hce⟩

/-- Scenario A's `move` tree with its gate type corrupted to `XOR`,
which `solve_ft_gate` rejects. -/
def ft_move_bad : FTInput :=
  { top_event := "move_failure"
    succ := [("move_failure", ["c_m"])]
    gates := [("move_failure", "XOR")]
    basic_events := [("c_m", 1/10)] }

theorem bad_ft_results :
    ft_results [ft_move_bad, ft_pick] =
      some [("move_failure", 0), ("pick_failure", 1/5)] := by
  norm_num +decide [ft_results, solve_ft_result, solve_ft_top, solve_dfs,
    solve_ft_gate, orFold, andFold, childValue, dlook, grNum, isReady,
    dictSet, dictDel, ft_move_bad, ft_pick]

theorem scenarioBad_resolved :
    resolve_transitions [("move_failure", 0), ("pick_failure", 1/5)] []
      mcA.transitions =
      [("move", [("pick", .num 1), ("move_failure", .num 0)]),
       ("pick", [("pick_failure", .num (1/5)), ("done", .num (4/5))]),
       ("move_failure", [("move_failure", .str "1")]),
       ("pick_failure", [("pick_failure", .str "1")]),
       ("done", [("done", .str "1")])] := by
  rw [mcA_transitions]
  norm_num +decide [resolve_transitions, resolveVal, dlook, List.find?]

/-- The scenario-A transition dict after the corrupted `move` tree's
`False` has propagated as the value `0`. -/
def tBad : List (String × List (String × ℚ)) :=
  [("move", [("pick", 1), ("move_failure", 0)]),
   ("pick", [("pick_failure", 1/5), ("done", 4/5)]),
   ("move_failure", [("move_failure", 1)]),
   ("pick_failure", [("pick_failure", 1)]),
   ("done", [("done", 1)])]

theorem scenarioBad_toNum :
    toNumTrans (resolve_transitions
      [("move_failure", 0), ("pick_failure", 1/5)] [] mcA.transitions) =
      some tBad := by
  rw [scenarioBad_resolved]
  rfl

theorem scenarioBad_q :
    q_matrix ["move", "pick"] ["move_failure", "pick_failure", "done"] tBad =
      !![0, 1; 0, 0] := by
  funext i j
  fin_cases i <;> fin_cases j <;> rfl

theorem scenarioBad_det :
    (1 - q_matrix ["move", "pick"] ["move_failure", "pick_failure", "done"]
      tBad).det = 1 := by
  rw [scenarioBad_q, Matrix.det_fin_two]
  simp [Matrix.sub_apply, Matrix.one_apply]

theorem scenarioBad_hybrid_isSome :
    (hybrid_solver [ft_move_bad, ft_pick] mcA []).isSome = true := by
  simp only [hybrid_solver, bad_ft_results]
  show (solve_mc ["move", "pick"] ["move_failure", "pick_failure", "done"]
    (resolve_transitions [("move_failure", 0), ("pick_failure", 1/5)] []
      mcA.transitions)).isSome = true
  simp only [solve_mc, scenarioBad_toNum]
  rw [if_neg (by rw [scenarioBad_det]; norm_num)]
  rfl

/-- C7 counterexample: an unknown gate type (`XOR`) does NOT abort the
hybrid solve.  `solve_ft_gate` returns Python `False`, the tree's
stored top-event probability stays the numeric `0` the sentinel
behaves as, and the hybrid solver goes on to resolve the transitions
and solve the Markov chain, producing a (partial, silently wrong)
result. -/
theorem solve_ft_gate_error_counterexample :
    solve_ft_gate ["c_m"] "XOR" [("c_m", (1:ℚ)/10)] [] = .err
    ∧ solve_ft_result ft_move_bad = some .err
    ∧ ft_results [ft_move_bad, ft_pick] =
        some [("move_failure", 0), ("pick_failure", 1/5)]
    ∧ (hybrid_solver [ft_move_bad, ft_pick] mcA []).isSome = true := by
  refine ⟨rfl, by decide, bad_ft_results, scenarioBad_hybrid_isSome⟩

/-- C7 (amended): an unknown gate type or a missing child probability
makes `solve_ft_gate` return Python `False` (`err`), but this is not a
fatal error: the sentinel is stored as the gate's (numerically `0`)
result and the hybrid solver continues, resolving the transitions and
solving the Markov chain — as the `XOR`-corrupted scenario-A run
shows concretely. -/
theorem solve_ft_gate_error_no_abort :
    (∀ (edges : List String) (gt : String) (bes : List (String × ℚ))
        (rm : List (String × GateResult)),
        gt ≠ "AND" → gt ≠ "OR" → solve_ft_gate edges gt bes rm = .err)
    ∧ (∀ (edges : List String) (gt : String) (bes : List (String × ℚ))
        (rm : List (String × GateResult)),
        (∃ e ∈ edges, childValue e bes rm = none) →
        solve_ft_gate edges gt bes rm = .err)
    ∧ grNum .err = 0
    ∧ (hybrid_solver [ft_move_bad, ft_pick] mcA []).isSome = true := by
  refine ⟨?_, ?_, rfl, scenarioBad_hybrid_isSome⟩
  · intro edges gt bes rm hand hor
    rw [solve_ft_gate, if_neg hand, if_neg hor]
  · intro edges gt bes rm hmiss
    rw [solve_ft_gate]
    by_cases hand : gt = "AND"
    · rw [if_pos hand]
      exact andFold_err_of_missing edges bes rm 1 hmiss
    · rw [if_neg hand]
      by_cases hor : gt = "OR"
      · rw [if_pos hor]
        exact orFold_err_of_missing edges bes rm 0 hmiss
      · rw [if_neg hor]

theorem solve_ft_gate_error_no_abort_witness :
    solve_ft_gate ["c_p"] "XOR" [("c_p", (1:ℚ)/5)] [] = .err
    ∧ solve_ft_gate ["zz"] "AND" [] [] = .err := by
  constructor
  · exact solve_ft_gate_error_no_abort.1 ["c_p"] "XOR" [("c_p", (1:ℚ)/5)] []
      (by decide) (by decide)
  · exact solve_ft_gate_error_no_abort.2.1 ["zz"] "AND" [] []
      ⟨"zz", by decide, rfl⟩

/-! ### Symbolic-transition resolution of the hybrid solver (C5) -/

theorem string_append_left_cancel (s a b : String) (h : s ++ a = s ++ b) :
    a = b := by
  apply string_eq_of_data
  have hd := congrArg String.data h
  rw [string_data_append, string_data_append] at hd
  exact List.append_cancel_left hd

/-- The `"1 - " + top_event == value` scan of `hybrid_solver` finds
exactly the entry of the matching top event when the top-event names
are distinct. -/
theorem find_one_minus (ftr : List (String × ℚ)) (te : String) (p : ℚ)
    (hnd : (ftr.map Prod.fst).Nodup) (hm : (te, p) ∈ ftr) :
    ftr.find? (fun q => "1 - " ++ q.1 = "1 - " ++ te) = some (te, p) := by
  induction ftr with
  | nil => exact absurd hm (List.not_mem_nil _)
  | cons a as ih =>
    obtain ⟨a1, a2⟩ := a
    by_cases ha : a1 = te
    · subst ha
      have ha2 : a2 = p := by
        rcases List.mem_cons.mp hm with heq | hmem
        · injection heq with h1 h2
          exact h2.symm
        · exfalso
          rw [List.map_cons] at hnd
          exact (List.nodup_cons.mp hnd).1
            (List.mem_map.mpr ⟨(a1, p), hmem, rfl⟩)
      subst ha2
      exact List.find?_cons_of_pos _ (by simp)
    · rw [List.find?_cons_of_neg]
      · apply ih
        · rw [List.map_cons] at hnd
          exact (List.nodup_cons.mp hnd).2
        · rcases List.mem_cons.mp hm with heq | hmem
          · injection heq with h1 h2
            exact absurd h1.symm ha
          · exact hmem
      · simp only [decide_eq_true_eq]
        intro hc
        exact ha (string_append_left_cancel _ _ _ hc)

theorem mcB_transitions :
    mcB.transitions =
      [("move", [("pick", .str "1 - move_failure"),
                 ("move_failure", .str "move_failure")]),
       ("pick", [("pick_failure", .str "pick_failure"),
                 ("done", .str "1 - pick_failure"),
                 ("move", .str "1 - pick_failure")]),
       ("move_failure", [("move_failure", .str "1")]),
       ("pick_failure", [("pick_failure", .str "1")]),
       ("done", [("done", .str "1")])] := by
  decide

/-- C5: transition resolution of the hybrid solver.  A symbolic weight
equal to a resolved top-event name becomes that tree's numeric failure
probability; the literal `'1'` is skipped, staying the string `'1'`
that the matrix builder later reads as the number `1`; a weight
`"1 - " ++ te` for a resolved top event `te` becomes `1 − p`, times
the `repeat_dict` factor of the destination state when that state is a
`repeat_dict` key; and in scenario B (`repeat_info = 1`,
`repeat_dict = {done: 0.5}`) the resolved `pick → done` transition is
`(1 − 0.2) · 0.5 = 0.4`. -/
theorem hybrid_transition_resolution :
    (∀ (ftr rep : List (String × ℚ)) (t s : String) (p : ℚ),
        dlook ftr s = some p → resolveVal ftr rep t (.str s) = .num p)
    ∧ (∀ (ftr rep : List (String × ℚ)) (t : String),
        dlook ftr "1" = none →
        resolveVal ftr rep t (.str "1") = .str "1" ∧
          toNum (.str "1") = some 1)
    ∧ (∀ (ftr rep : List (String × ℚ)) (t te : String) (p : ℚ),
        (ftr.map Prod.fst).Nodup → (te, p) ∈ ftr →
        dlook ftr ("1 - " ++ te) = none → "1 - " ++ te ≠ "1" →
        dlook rep t = none →
        resolveVal ftr rep t (.str ("1 - " ++ te)) = .num (1 - p))
    ∧ (∀ (ftr rep : List (String × ℚ)) (t te : String) (p fac : ℚ),
        (ftr.map Prod.fst).Nodup → (te, p) ∈ ftr →
        dlook ftr ("1 - " ++ te) = none → "1 - " ++ te ≠ "1" →
        dlook rep t = some fac →
        resolveVal ftr rep t (.str ("1 - " ++ te)) = .num ((1 - p) * fac))
    ∧ (lookup2 (resolve_transitions
          [("move_failure", 1/10), ("pick_failure", 1/5)] [("done", 1/2)]
          mcB.transitions) "pick" "done" = some (.num (2/5))
        ∧ (2/5 : ℚ) = (1 - 1/5) * (1/2)) := by
  refine ⟨?_, ?_, ?_, ?_, ?_, by norm_num⟩
  · intro ftr rep t s p h
    simp only [resolveVal, h]
  · intro ftr rep t h
    exact ⟨by simp [resolveVal, h], rfl⟩
  · intro ftr rep t te p hnd hm hnone hne hrep
    simp only [resolveVal, hnone]
    rw [if_neg hne]
    simp only [find_one_minus ftr te p hnd hm, hrep]
  · intro ftr rep t te p fac hnd hm hnone hne hrep
    simp only [resolveVal, hnone]
    rw [if_neg hne]
    simp only [find_one_minus ftr te p hnd hm, hrep]
  · rw [mcB_transitions]
    norm_num +decide [resolve_transitions, resolveVal, dlook, List.find?,
      lookup2]

theorem hybrid_transition_resolution_witness :
    resolveVal [("a", (1:ℚ)/4)] [] "x" (.str "a") = .num (1/4)
    ∧ resolveVal [("a", (1:ℚ)/4)] [] "x" (.str "1") = .str "1"
    ∧ resolveVal [("a", (1:ℚ)/4)] [] "x" (.str ("1 - " ++ "a")) =
        .num (1 - 1/4)
    ∧ resolveVal [("a", (1:ℚ)/4)] [("x", (1:ℚ)/2)] "x"
        (.str ("1 - " ++ "a")) = .num ((1 - 1/4) * (1/2)) := by
  refine ⟨hybrid_transition_resolution.1 [("a", (1:ℚ)/4)] [] "x" "a" (1/4) rfl,
    (hybrid_transition_resolution.2.1 [("a", (1:ℚ)/4)] [] "x" rfl).1,
    hybrid_transition_resolution.2.2.1 [("a", (1:ℚ)/4)] [] "x" "a" (1/4)
      (by decide) (List.mem_singleton.mpr rfl) rfl (by decide) rfl,
    hybrid_transition_resolution.2.2.2.1 [("a", (1:ℚ)/4)] [("x", (1:ℚ)/2)]
      "x" "a" (1/4) (1/2)
      (by decide) (List.mem_singleton.mpr rfl) rfl (by decide) rfl⟩

/-! ### FaultTree construction with redundancy (C9,
dra_reliability_models.py lines 253-267, 301-304, 325-345) -/

/-- `add_basic_events` (lines 301-304): `self.basic_events =
basic_events` stores the caller's dictionary itself (by reference, not
a copy), so any later in-place mutation of the tree's `basic_events`
is a mutation of the caller's dictionary. -/
def add_basic_events (be : List (String × ℚ)) : List (String × ℚ) := be

/-- One iteration of the inner `for component_name in value` loop of
`add_gates` (lines 339-342): a component present in `basic_events` is
appended to the current AND list and deleted from `basic_events`. -/
def redStepF (acc : List (String × ℚ) × List String) (c : String) :
    List (String × ℚ) × List String :=
  if (dlook acc.1 c).isSome then (dictDel acc.1 c, acc.2 ++ [c]) else acc

/-- The whole inner loop: remaining `basic_events` and the AND list of
one `loss_of_<key>` gate. -/
def redStep (be : List (String × ℚ)) (value : List String) :
    List (String × ℚ) × List String :=
  value.foldl redStepF (be, [])

/-- One iteration of the outer `for key, value in
redundant_components.items()` loop (lines 335-342): state is
(`basic_events`, top OR list so far, gate entries so far). -/
def redGatesF (acc : List (String × ℚ) × List String ×
      List (String × List (String × List String)))
    (kv : String × List String) :
    List (String × ℚ) × List String ×
      List (String × List (String × List String)) :=
  ((redStep acc.1 kv.2).1,
    acc.2.1 ++ ["loss_of_" ++ kv.1],
    acc.2.2 ++ [("loss_of_" ++ kv.1, [("AND", (redStep acc.1 kv.2).2)])])

/-- `add_gates` (lines 325-345), returning the final `basic_events`
(mutated in place when `redundancy` is set: `basic_events =
self.basic_events` aliases, and `del basic_events[component_name]`
mutates through the alias) together with the `gates` dict. -/
def add_gates (top_event : String) (be : List (String × ℚ))
    (redundancy : Bool) (red : List (String × List String)) :
    List (String × ℚ) × List (String × List (String × List String)) :=
  if redundancy = false then
    (be, [(top_event, [("OR", be.map Prod.fst)])])
  else
    ((red.foldl redGatesF (be, [], [])).1,
      (top_event, [("OR", (red.foldl redGatesF (be, [], [])).2.1 ++
        (red.foldl redGatesF (be, [], [])).1.map Prod.fst)]) ::
      (red.foldl redGatesF (be, [], [])).2.2)

/-- The fields of a `FaultTree` object that `auto_create_ft` builds. -/
structure FTObj where
  basic_events : List (String × ℚ)
  gates : List (String × List (String × List String))
deriving Repr, DecidableEq

/-- `auto_create_ft` (lines 253-267) on a freshly constructed
`FaultTree` (empty `top_event` and `skill` fields): the two error
paths return `False` (modelled `none`); otherwise the basic events are
stored and the gates built. -/
def auto_create_ft (be : List (String × ℚ)) (top_event skill : String)
    (redundancy : Bool) (red : List (String × List String)) : Option FTObj :=
  if top_event = "" then none
  else if skill = "" then none
  else
    some { basic_events := (add_gates top_event (add_basic_events be)
            redundancy red).1
           gates := (add_gates top_event (add_basic_events be)
            redundancy red).2 }

theorem redStep_fold_none (v : List String) :
    ∀ (d : List (String × ℚ)) (L : List String) (c : String),
      dlook d c = none → dlook (v.foldl redStepF (d, L)).1 c = none := by
  induction v with
  | nil =>
    intro d L c h
    exact h
  | cons a as ih =>
    intro d L c h
    rw [List.foldl_cons]
    by_cases ha : (dlook d a).isSome
    · rw [show redStepF (d, L) a = (dictDel d a, L ++ [a]) from by
        simp [redStepF, ha]]
      apply ih
      by_cases hca : c = a
      · subst hca
        exact dlook_dictDel_self d c
      · rw [dlook_dictDel_ne d a c hca]
        exact h
    · rw [show redStepF (d, L) a = (d, L) from by simp [redStepF, ha]]
      exact ih d L c h

theorem redStep_fold_mem (v : List String) :
    ∀ (d : List (String × ℚ)) (L : List String) (c : String),
      c ∈ v → dlook (v.foldl redStepF (d, L)).1 c = none := by
  induction v with
  | nil =>
    intro d L c h
    exact absurd h (List.not_mem_nil c)
  | cons a as ih =>
    intro d L c h
    rw [List.foldl_cons]
    rcases List.mem_cons.mp h with rfl | hmem
    · by_cases ha : (dlook d c).isSome
      · rw [show redStepF (d, L) c = (dictDel d c, L ++ [c]) from by
          simp [redStepF, ha]]
        exact redStep_fold_none as _ _ c (dlook_dictDel_self d c)
      · rw [show redStepF (d, L) c = (d, L) from by simp [redStepF, ha]]
        exact redStep_fold_none as d L c (Option.not_isSome_iff_eq_none.mp ha)
    · by_cases ha : (dlook d a).isSome
      · rw [show redStepF (d, L) a = (dictDel d a, L ++ [a]) from by
          simp [redStepF, ha]]
        exact ih _ _ c hmem
      · rw [show redStepF (d, L) a = (d, L) from by simp [redStepF, ha]]
        exact ih d L c hmem

theorem redStep_fold_not_mem (v : List String) :
    ∀ (d : List (String × ℚ)) (L : List String) (c : String),
      c ∉ v → dlook (v.foldl redStepF (d, L)).1 c = dlook d c := by
  induction v with
  | nil =>
    intro d L c _
    rfl
  | cons a as ih =>
    intro d L c h
    rw [List.foldl_cons]
    have hca : c ≠ a := fun hc => h (hc ▸ List.mem_cons_self a as)
    have hcas : c ∉ as := fun hc => h (List.mem_cons_of_mem a hc)
    by_cases ha : (dlook d a).isSome
    · rw [show redStepF (d, L) a = (dictDel d a, L ++ [a]) from by
        simp [redStepF, ha]]
      rw [ih _ _ c hcas]
      exact dlook_dictDel_ne d a c hca
    · rw [show redStepF (d, L) a = (d, L) from by simp [redStepF, ha]]
      exact ih d L c hcas

theorem redGates_fold_none (red : List (String × List String)) :
    ∀ (d : List (String × ℚ)) (o : List String)
      (g : List (String × List (String × List String))) (c : String),
      dlook d c = none → dlook (red.foldl redGatesF (d, o, g)).1 c = none := by
  induction red with
  | nil =>
    intro d o g c h
    exact h
  | cons kv kvs ih =>
    intro d o g c h
    rw [List.foldl_cons]
    rw [show redGatesF (d, o, g) kv =
        ((redStep d kv.2).1, o ++ ["loss_of_" ++ kv.1],
         g ++ [("loss_of_" ++ kv.1, [("AND", (redStep d kv.2).2)])]) from rfl]
    exact ih _ _ _ c (redStep_fold_none kv.2 d [] c h)

theorem redGates_fold_mem (red : List (String × List String)) :
    ∀ (d : List (String × ℚ)) (o : List String)
      (g : List (String × List (String × List String)))
      (key : String) (value : List String) (c : String),
      (key, value) ∈ red → c ∈ value →
      dlook (red.foldl redGatesF (d, o, g)).1 c = none := by
  induction red with
  | nil =>
    intro d o g key value c h _
    exact absurd h (List.not_mem_nil _)
  | cons kv kvs ih =>
    intro d o g key value c hm hc
    rw [List.foldl_cons]
    rw [show redGatesF (d, o, g) kv =
        ((redStep d kv.2).1, o ++ ["loss_of_" ++ kv.1],
         g ++ [("loss_of_" ++ kv.1, [("AND", (redStep d kv.2).2)])]) from rfl]
    rcases List.mem_cons.mp hm with heq | hmem
    · subst heq
      exact redGates_fold_none kvs _ _ _ c (redStep_fold_mem value d [] c hc)
    · exact ih _ _ _ key value c hmem hc

theorem redGates_fold_not_mem (red : List (String × List String)) :
    ∀ (d : List (String × ℚ)) (o : List String)
      (g : List (String × List (String × List String))) (c : String),
      (∀ kv ∈ red, c ∉ kv.2) →
      dlook (red.foldl redGatesF (d, o, g)).1 c = dlook d c := by
  induction red with
  | nil =>
    intro d o g c _
    rfl
  | cons kv kvs ih =>
    intro d o g c h
    rw [List.foldl_cons]
    rw [show redGatesF (d, o, g) kv =
        ((redStep d kv.2).1, o ++ ["loss_of_" ++ kv.1],
         g ++ [("loss_of_" ++ kv.1, [("AND", (redStep d kv.2).2)])]) from rfl]
    rw [ih _ _ _ c (fun kv' hkv' => h kv' (List.mem_cons_of_mem kv hkv'))]
    exact redStep_fold_not_mem kv.2 d [] c (h kv (List.mem_cons_self kv kvs))

/-- C9: with `redundancy=True`, `add_gates` deletes every component
listed in `redundant_components` from `basic_events` as a side effect
(while components not listed anywhere keep their entries), and since
`add_basic_events` stores the caller's dictionary itself rather than a
copy, the deleted dictionary is what the caller is left holding; the
deleted components are AND-gated under `loss_of_<key>` gates, and their
probabilities are no longer in `basic_events`, hence unavailable to the
solver — shown concretely for a three-component tree. -/
theorem auto_create_ft_redundancy_deletes :
    (∀ be : List (String × ℚ), add_basic_events be = be)
    ∧ (∀ (top : String) (be : List (String × ℚ))
         (red : List (String × List String)) (key c : String)
         (value : List String),
        (key, value) ∈ red → c ∈ value →
        dlook (add_gates top be true red).1 c = none)
    ∧ (∀ (top : String) (be : List (String × ℚ))
         (red : List (String × List String)) (c : String),
        (∀ kv ∈ red, c ∉ kv.2) →
        dlook (add_gates top be true red).1 c = dlook be c)
    ∧ (∀ (top skill : String) (be : List (String × ℚ))
         (red : List (String × List String)),
        top ≠ "" → skill ≠ "" →
        auto_create_ft be top skill true red =
          some ⟨(add_gates top be true red).1, (add_gates top be true red).2⟩)
    ∧ auto_create_ft [("c1", (1:ℚ)/10), ("c2", 1/10), ("b", 1/5)]
        "top" "skill" true [("motor", ["c1", "c2"])] =
        some ⟨[("b", 1/5)],
          [("top", [("OR", ["loss_of_motor", "b"])]),
           ("loss_of_motor", [("AND", ["c1", "c2"])])]⟩ := by
  refine ⟨fun be => rfl, ?_, ?_, ?_, rfl⟩
  · intro top be red key c value hm hc
    show dlook (red.foldl redGatesF (be, [], [])).1 c = none
    exact redGates_fold_mem red be [] [] key value c hm hc
  · intro top be red c h
    show dlook (red.foldl redGatesF (be, [], [])).1 c = dlook be c
    exact redGates_fold_not_mem red be [] [] c h
  · intro top skill be red htop hskill
    rw [auto_create_ft, if_neg htop, if_neg hskill]
    rfl

theorem auto_create_ft_redundancy_deletes_witness :
    dlook (add_gates "top" [("c1", (1:ℚ)/10), ("b", 1/5)] true
      [("motor", ["c1"])]).1 "c1" = none
    ∧ dlook (add_gates "top" [("c1", (1:ℚ)/10), ("b", 1/5)] true
      [("motor", ["c1"])]).1 "b" = dlook [("c1", (1:ℚ)/10), ("b", 1/5)] "b"
    ∧ auto_create_ft [("c1", (1:ℚ)/10), ("b", 1/5)] "top" "skill" true
        [("motor", ["c1"])] =
        some ⟨(add_gates "top" [("c1", (1:ℚ)/10), ("b", 1/5)] true
            [("motor", ["c1"])]).1,
          (add_gates "top" [("c1", (1:ℚ)/10), ("b", 1/5)] true
            [("motor", ["c1"])]).2⟩ := by
  refine ⟨auto_create_ft_redundancy_deletes.2.1 "top" _ _ "motor" "c1" ["c1"]
      (List.mem_singleton.mpr rfl) (List.mem_singleton.mpr rfl),
    auto_create_ft_redundancy_deletes.2.2.1 "top" _ _ "b" ?_,
    auto_create_ft_redundancy_deletes.2.2.2.1 "top" "skill" _ _
      (by decide) (by decide)⟩
  intro kv hkv
  rw [List.mem_singleton] at hkv
  subst hkv
  decide

end DRA
